import Mathlib

/-!
Shallow embedding of the Minesweeper board engine (src/board.rs) and proofs
about its operations.  Machine `usize` values are modelled as `Nat`, `isize`
as `Int` (the program never overflows these: indices are bounded by the grid
size).  The Rust `Vec<bool>` minefield and `Vec<CellState>` state array are
modelled as Lean lists whose length `width * height` is carried as an
invariant of the `Board` structure (the Rust vectors are allocated with that
length at construction and only ever updated in place, never resized).
The single source of randomness, `rand`'s `shuffle` in
`place_mines_excluding`, is modelled by threading an arbitrary `shuffle`
function; theorems that depend on it being a permutation take that as a
hypothesis.
-/

namespace Minesweeper

/-- Per-cell visibility state, as in `board.rs`. -/
inductive CellState : Type where
  | Hidden : CellState
  | Revealed : Nat → CellState
  | Flagged : CellState
  deriving DecidableEq, Repr

/-- Boolean test used by the `matches!(_, Revealed(_))` patterns. -/
def CellState.isRevealed : CellState → Bool
  | CellState.Revealed _ => true
  | _ => false

/-- Boolean test used by the `matches!(_, Hidden)` patterns. -/
def CellState.isHidden : CellState → Bool
  | CellState.Hidden => true
  | _ => false

/-- The board structure of `board.rs`; the two vectors keep length
`width * height` throughout (they are created with that length and only
mutated by in-place `set`). -/
structure Board : Type where
  width : Nat
  height : Nat
  mines : Nat
  minesPlaced : Bool
  minefield : List Bool
  state : List CellState
  hmf : minefield.length = width * height
  hst : state.length = width * height

/-- `Board::idx`: flat index of a coordinate. -/
def Board.idx (b : Board) (x y : Nat) : Nat := y * b.width + x

/-- `Board::in_bounds` on `isize` coordinates. -/
def Board.inBounds (b : Board) (x y : Int) : Bool :=
  decide (0 ≤ x) && decide (0 ≤ y) &&
    decide (x.toNat < b.width) && decide (y.toNat < b.height)

/-- Read of `self.state[i]`; every such read in the Rust code happens at an
index below `width * height`, where `getD` agrees with the vector access. -/
def Board.stateAt (b : Board) (i : Nat) : CellState :=
  b.state.getD i CellState.Hidden

/-- Read of `self.minefield[i]`, same convention as `stateAt`. -/
def Board.mineAt (b : Board) (i : Nat) : Bool :=
  b.minefield.getD i false

/-- `Board::cell_at`: unvalidated indexing `self.state[self.idx(x, y)]`.
`none` models the `Vec` index panic when the flat index is out of range. -/
def Board.cellAt (b : Board) (x y : Nat) : Option CellState :=
  b.state.get? (b.idx x y)

/-- In-place update `self.state[i] = c`. -/
def Board.setState (b : Board) (i : Nat) (c : CellState) : Board :=
  ⟨b.width, b.height, b.mines, b.minesPlaced, b.minefield, b.state.set i c,
   b.hmf, by rw [List.length_set]; exact b.hst⟩

/-- `Board::new`. The Rust constructor asserts `width > 0 && height > 0`
and `mines < width * height` (panicking otherwise); those preconditions
appear as hypotheses of the theorems that need them. -/
def Board.new (width height mines : Nat) : Board :=
  ⟨width, height, mines, false,
   List.replicate (width * height) false,
   List.replicate (width * height) CellState.Hidden,
   List.length_replicate _ _, List.length_replicate _ _⟩

/-- The nine `(dx, dy)` offsets produced by the nested ranges in
`Board::neighbors`, in iteration order. -/
def neighborOffsets : List (Int × Int) :=
  ([-1, 0, 1] : List Int).flatMap
    (fun dy => ([-1, 0, 1] : List Int).map (fun dx => (dx, dy)))

/-- `Board::neighbors`: the up-to-8 in-bounds king-move neighbors of a
cell, in the iterator's order. -/
def Board.neighbors (b : Board) (x y : Nat) : List (Nat × Nat) :=
  ((((neighborOffsets.filter (fun d => !(d.1 == 0 && d.2 == 0))).map
        (fun d => ((x : Int) + d.1, (y : Int) + d.2))).filter
      (fun p => b.inBounds p.1 p.2)).map
    (fun p => (p.1.toNat, p.2.toNat)))

/-- `Board::adjacent_mine_count`. -/
def Board.adjacentMineCount (b : Board) (x y : Nat) : Nat :=
  ((b.neighbors x y).filter (fun p => b.mineAt (b.idx p.1 p.2))).length

/-- Adjacent mine count addressed by flat index. -/
def Board.countAt (b : Board) (i : Nat) : Nat :=
  b.adjacentMineCount (i % b.width) (i / b.width)

/-- Number of `Hidden` entries of the state array (used as the fuel bound
for the flood-fill work list). -/
def Board.hiddenCount (b : Board) : Nat :=
  b.state.countP (fun c => c.isHidden)

/-- `Board::place_mines_excluding`: no-op when mines are placed; otherwise
shuffle the flat indices other than the excluded one and mark the first
`mines` of them.  `shuffle` stands for `rand`'s in-place `shuffle`. -/
def Board.placeMinesExcluding (shuffle : List Nat → List Nat) (b : Board)
    (exclude : Nat × Nat) : Board :=
  if b.minesPlaced then b
  else
    ⟨b.width, b.height, b.mines, true,
     ((shuffle ((List.range (b.width * b.height)).filter
          (fun i => i != b.idx exclude.1 exclude.2))).take b.mines).foldl
        (fun m i => m.set i true) b.minefield,
     b.state,
     by
       have h : ∀ (ids : List Nat) (l : List Bool),
           (ids.foldl (fun m i => m.set i true) l).length = l.length := by
         intro ids
         induction ids with
         | nil => intro l; rfl
         | cons a t ih => intro l; rw [List.foldl_cons, ih, List.length_set]
       rw [h]; exact b.hmf,
     b.hst⟩

/-- Body of the `for (nx, ny) in neighbors` loop of
`Board::flood_fill_zeroes`: reveal every hidden non-mine neighbor, pushing
the zero-count ones onto the work stack (head of the list = top). -/
def Board.floodNeighbors (b : Board) (ns : List (Nat × Nat))
    (stack : List (Nat × Nat)) : Board × List (Nat × Nat) :=
  match ns with
  | [] => (b, stack)
  | q :: rest =>
    if b.stateAt (b.idx q.1 q.2) = CellState.Hidden ∧
        b.mineAt (b.idx q.1 q.2) = false then
      if b.adjacentMineCount q.1 q.2 = 0 then
        (b.setState (b.idx q.1 q.2)
            (CellState.Revealed (b.adjacentMineCount q.1 q.2))).floodNeighbors
          rest (q :: stack)
      else
        (b.setState (b.idx q.1 q.2)
            (CellState.Revealed (b.adjacentMineCount q.1 q.2))).floodNeighbors
          rest stack
    else b.floodNeighbors rest stack

/-- The `while let Some(..) = stack.pop()` loop of
`Board::flood_fill_zeroes`.  The Rust loop terminates because each
iteration pops one entry and every push flips a `Hidden` cell to
`Revealed`; the explicit fuel argument mirrors that measure
(`2 * hiddenCount + |stack|` strictly decreases each iteration, see
`floodLoop_measure_lt`), so with the fuel supplied by `floodFillZeroes`
the fuel never runs out. -/
def floodLoop : Nat → Board → List (Nat × Nat) → Board
  | 0, b, _ => b
  | _ + 1, b, [] => b
  | fuel + 1, b, p :: rest =>
    floodLoop fuel (b.floodNeighbors (b.neighbors p.1 p.2) rest).1
      (b.floodNeighbors (b.neighbors p.1 p.2) rest).2

/-- `Board::flood_fill_zeroes`. -/
def Board.floodFillZeroes (b : Board) (x y : Nat) : Board :=
  floodLoop (2 * b.hiddenCount + 2) b [(x, y)]

/-- `Board::reveal`. Returns the updated board and the `bool` result
(`true` = safe). -/
def Board.reveal (shuffle : List Nat → List Nat) (b : Board) (x y : Nat) :
    Board × Bool :=
  if b.inBounds x y then
    let b1 := if b.minesPlaced then b else b.placeMinesExcluding shuffle (x, y)
    match b1.stateAt (b1.idx x y) with
    | CellState.Hidden =>
      if b1.mineAt (b1.idx x y) then (b1, false)
      else
        let b2 := b1.setState (b1.idx x y)
          (CellState.Revealed (b1.adjacentMineCount x y))
        if b1.adjacentMineCount x y = 0 then (b2.floodFillZeroes x y, true)
        else (b2, true)
    | _ => (b1, true)
  else (b, true)

/-- `Board::toggle_flag`. -/
def Board.toggleFlag (b : Board) (x y : Nat) : Board :=
  if b.inBounds x y then
    b.setState (b.idx x y)
      (match b.stateAt (b.idx x y) with
       | CellState.Hidden => CellState.Flagged
       | CellState.Flagged => CellState.Hidden
       | CellState.Revealed n => CellState.Revealed n)
  else b

/-- The flag-counting loop at the start of `Board::chord`. -/
def Board.flagCountAround (b : Board) (x y : Nat) : Nat :=
  (b.neighbors x y).countP
    (fun p => b.stateAt (b.idx p.1 p.2) == CellState.Flagged)

/-- The neighbor batch of `Board::chord`: reveal each hidden non-mine
neighbor (flood-filling zeros), record `safe = false` on each hidden mine,
and keep going — the loop never exits early. -/
def Board.chordNeighbors (b : Board) (ns : List (Nat × Nat)) (safe : Bool) :
    Board × Bool :=
  match ns with
  | [] => (b, safe)
  | q :: rest =>
    if b.stateAt (b.idx q.1 q.2) = CellState.Hidden then
      if b.mineAt (b.idx q.1 q.2) then b.chordNeighbors rest false
      else
        (if b.adjacentMineCount q.1 q.2 = 0 then
            (b.setState (b.idx q.1 q.2)
              (CellState.Revealed (b.adjacentMineCount q.1 q.2))).floodFillZeroes
              q.1 q.2
          else
            b.setState (b.idx q.1 q.2)
              (CellState.Revealed (b.adjacentMineCount q.1 q.2))).chordNeighbors
          rest safe
    else b.chordNeighbors rest safe

/-- `Board::chord`. -/
def Board.chord (b : Board) (x y : Nat) : Board × Bool :=
  if b.inBounds x y then
    match b.stateAt (b.idx x y) with
    | CellState.Revealed n =>
      if 0 < n then
        if b.flagCountAround x y = n then b.chordNeighbors (b.neighbors x y) true
        else (b, true)
      else (b, true)
    | _ => (b, true)
  else (b, true)

/-- `Board::is_win`: the double loop returns `false` at the first cell that
is neither a mine nor revealed. -/
def Board.isWin (b : Board) : Bool :=
  (List.range b.height).all (fun y =>
    (List.range b.width).all (fun x =>
      b.mineAt (b.idx x y) || (b.stateAt (b.idx x y)).isRevealed))

/-- One externally visible mutating operation of the engine. -/
inductive Op : Type where
  | reveal : Nat → Nat → Op
  | toggle : Nat → Nat → Op
  | chord : Nat → Nat → Op

/-- Dispatch one operation (the session layer's calls into the board). -/
def applyOp (shuffle : List Nat → List Nat) (b : Board) : Op → Board
  | Op.reveal x y => (b.reveal shuffle x y).1
  | Op.toggle x y => b.toggleFlag x y
  | Op.chord x y => (b.chord x y).1

/-- Run a sequence of operations. -/
def applyOps (shuffle : List Nat → List Nat) (b : Board) (ops : List Op) :
    Board :=
  ops.foldl (fun c op => applyOp shuffle c op) b

/-- Whether an operation is a `reveal` (used to speak about the first
reveal a board receives). -/
def Op.isReveal : Op → Bool
  | Op.reveal _ _ => true
  | _ => false

/-- The gating condition of `Board::chord`: in bounds, on a `Revealed n`
cell with `n > 0`, and with exactly `n` flagged neighbors.  When this is
false, `chord` is a no-op returning `true`. -/
def Board.chordEligible (b : Board) (x y : Nat) : Bool :=
  b.inBounds x y &&
    (match b.stateAt (b.idx x y) with
     | CellState.Revealed n => decide (0 < n) && (b.flagCountAround x y == n)
     | _ => false)

/-- Specification-side mine count of a cell: the number of mine cells
among the up-to-8 grid-adjacent cells (diagonals included), written
directly from the spec's words rather than from the code's neighbor
iterator.  Compared against `Board.adjacentMineCount` by refinement. -/
def specMineCount (b : Board) (x y : Nat) : Nat :=
  ((Finset.range b.width ×ˢ Finset.range b.height).filter
    (fun p => p ≠ (x, y) ∧ ((p.1 : Int) - (x : Int)).natAbs ≤ 1 ∧
      ((p.2 : Int) - (y : Int)).natAbs ≤ 1 ∧
      b.mineAt (b.idx p.1 p.2) = true)).card

/-- The count-correctness invariant: every revealed cell shows its exact
adjacent mine count and is not itself a mine. -/
def CountOK (b : Board) : Prop :=
  ∀ i, i < b.width * b.height → ∀ n, b.stateAt i = CellState.Revealed n →
    b.mineAt i = false ∧ n = b.countAt i

/-- No cell of the board is revealed (true of every board before its lazy
mine placement). -/
def NoRevealedCells (b : Board) : Prop :=
  ∀ i, (b.stateAt i).isRevealed = false

/-- The reachable-state invariant: before placement no cell is revealed,
and revealed cells always show their correct adjacent mine count. -/
def Inv (b : Board) : Prop :=
  (b.minesPlaced = false → NoRevealedCells b) ∧ CountOK b

/-- How one board follows from another by reveal-style updates only: all
scalar fields and the minefield are unchanged, and each cell either keeps
its state or goes from `Hidden` (and not a mine) to `Revealed` with its
adjacent mine count. -/
def StepsTo (b r : Board) : Prop :=
  r.width = b.width ∧ r.height = b.height ∧ r.mines = b.mines ∧
  r.minesPlaced = b.minesPlaced ∧ r.minefield = b.minefield ∧
  ∀ i, r.stateAt i = b.stateAt i ∨
    (b.stateAt i = CellState.Hidden ∧ b.mineAt i = false ∧
     r.stateAt i = CellState.Revealed (b.countAt i))

/-- A cell is fully expanded when none of its neighbors is a hidden
non-mine cell. -/
def Expanded (b : Board) (p : Nat × Nat) : Prop :=
  ∀ q ∈ b.neighbors p.1 p.2,
    b.mineAt (b.idx q.1 q.2) = false →
    b.stateAt (b.idx q.1 q.2) ≠ CellState.Hidden

/-- Connectivity through hidden, non-mine, zero-count cells, starting from
a given cell: the part of the zero region a flood fill can actually
traverse. -/
inductive ZeroReach (b : Board) (s : Nat × Nat) : Nat × Nat → Prop where
  | refl : ZeroReach b s s
  | step (p q : Nat × Nat) : ZeroReach b s p → q ∈ b.neighbors p.1 p.2 →
      b.stateAt (b.idx q.1 q.2) = CellState.Hidden →
      b.mineAt (b.idx q.1 q.2) = false →
      b.adjacentMineCount q.1 q.2 = 0 → ZeroReach b s q

/-- Connectivity through zero-count cells regardless of their visibility
state: the "connected zero-count region" exactly as the claim words it. -/
inductive ZeroRegionConn (b : Board) (s : Nat × Nat) : Nat × Nat → Prop where
  | refl : ZeroRegionConn b s s
  | step (p q : Nat × Nat) : ZeroRegionConn b s p → q ∈ b.neighbors p.1 p.2 →
      b.adjacentMineCount q.1 q.2 = 0 → ZeroRegionConn b s q

/-! ### Basic facts about indices and cell access -/

theorem idx_lt (b : Board) {x y : Nat} (hx : x < b.width) (hy : y < b.height) :
    b.idx x y < b.width * b.height := by
  have h1 : y * b.width + x < (y + 1) * b.width := by
    rw [Nat.succ_mul]; omega
  have h2 : (y + 1) * b.width ≤ b.height * b.width :=
    Nat.mul_le_mul_right _ hy
  have := Nat.lt_of_lt_of_le h1 h2
  rw [Nat.mul_comm b.height b.width] at this
  exact this

theorem idx_mod (b : Board) {x : Nat} (y : Nat) (hx : x < b.width) :
    b.idx x y % b.width = x := by
  simp only [Board.idx]
  rw [Nat.add_comm, Nat.add_mul_mod_self_right, Nat.mod_eq_of_lt hx]

theorem idx_div (b : Board) {x : Nat} (y : Nat) (hx : x < b.width) :
    b.idx x y / b.width = y := by
  have hw : 0 < b.width := Nat.lt_of_le_of_lt (Nat.zero_le x) hx
  simp only [Board.idx]
  rw [Nat.add_comm, Nat.add_mul_div_right _ _ hw, Nat.div_eq_of_lt hx]
  omega

theorem idx_inj (b : Board) {p q : Nat × Nat} (hp : p.1 < b.width)
    (hq : q.1 < b.width) (h : b.idx p.1 p.2 = b.idx q.1 q.2) : p = q := by
  have h1 : p.1 = q.1 := by
    have := congrArg (fun i => i % b.width) h
    simpa [idx_mod b p.2 hp, idx_mod b q.2 hq] using this
  have h2 : p.2 = q.2 := by
    have := congrArg (fun i => i / b.width) h
    simpa [idx_div b p.2 hp, idx_div b q.2 hq] using this
  exact Prod.ext h1 h2

theorem countAt_idx (b : Board) {x : Nat} (y : Nat) (hx : x < b.width) :
    b.countAt (b.idx x y) = b.adjacentMineCount x y := by
  simp only [Board.countAt, idx_mod b y hx, idx_div b y hx]

theorem stateAt_eq_getElem (b : Board) {i : Nat} (h : i < b.state.length) :
    b.stateAt i = b.state[i] := by
  simp [Board.stateAt, List.getD_eq_getElem?_getD, List.getElem?_eq_getElem h]

@[simp] theorem setState_width (b : Board) (i : Nat) (c : CellState) :
    (b.setState i c).width = b.width := rfl

@[simp] theorem setState_height (b : Board) (i : Nat) (c : CellState) :
    (b.setState i c).height = b.height := rfl

@[simp] theorem setState_mines (b : Board) (i : Nat) (c : CellState) :
    (b.setState i c).mines = b.mines := rfl

@[simp] theorem setState_minesPlaced (b : Board) (i : Nat) (c : CellState) :
    (b.setState i c).minesPlaced = b.minesPlaced := rfl

@[simp] theorem setState_minefield (b : Board) (i : Nat) (c : CellState) :
    (b.setState i c).minefield = b.minefield := rfl

@[simp] theorem setState_mineAt (b : Board) (i : Nat) (c : CellState) (j : Nat) :
    (b.setState i c).mineAt j = b.mineAt j := rfl

@[simp] theorem setState_idx (b : Board) (i : Nat) (c : CellState) (x y : Nat) :
    (b.setState i c).idx x y = b.idx x y := rfl

@[simp] theorem setState_inBounds (b : Board) (i : Nat) (c : CellState)
    (x y : Int) : (b.setState i c).inBounds x y = b.inBounds x y := rfl

@[simp] theorem setState_neighbors (b : Board) (i : Nat) (c : CellState)
    (x y : Nat) : (b.setState i c).neighbors x y = b.neighbors x y := rfl

@[simp] theorem setState_adjacentMineCount (b : Board) (i : Nat) (c : CellState)
    (x y : Nat) :
    (b.setState i c).adjacentMineCount x y = b.adjacentMineCount x y := rfl

@[simp] theorem setState_countAt (b : Board) (i : Nat) (c : CellState) (j : Nat) :
    (b.setState i c).countAt j = b.countAt j := rfl

theorem setState_stateAt_self (b : Board) {i : Nat} (c : CellState)
    (h : i < b.state.length) : (b.setState i c).stateAt i = c := by
  simp [Board.setState, Board.stateAt, List.getD_eq_getElem?_getD,
    List.getElem?_set_self h]

theorem setState_stateAt_ne (b : Board) {i j : Nat} (c : CellState)
    (h : i ≠ j) : (b.setState i c).stateAt j = b.stateAt j := by
  simp [Board.setState, Board.stateAt, List.getD_eq_getElem?_getD,
    List.getElem?_set_ne h]

theorem setState_stateAt_ge (b : Board) {i : Nat} (c : CellState)
    (h : b.state.length ≤ i) (j : Nat) :
    (b.setState i c).stateAt j = b.stateAt j := by
  simp [Board.setState, Board.stateAt, List.set_eq_of_length_le h]

theorem hiddenCount_setState (b : Board) {i : Nat} (c : CellState)
    (h : i < b.state.length) (hh : b.stateAt i = CellState.Hidden)
    (hc : c.isHidden = false) :
    (b.setState i c).hiddenCount + 1 = b.hiddenCount := by
  have hbi : b.state[i] = CellState.Hidden := by
    rw [← stateAt_eq_getElem b h]; exact hh
  have hpos : 0 < b.state.countP (fun s => s.isHidden) := by
    rw [List.countP_pos_iff]
    exact ⟨b.state[i], List.getElem_mem h, by rw [hbi]; rfl⟩
  have hcount := List.countP_set (fun s : CellState => s.isHidden) b.state i c h
  rw [hbi] at hcount
  have e1 : (if CellState.Hidden.isHidden = true then 1 else 0) = 1 := rfl
  have e2 : (if c.isHidden = true then 1 else 0) = 0 := by rw [hc]; rfl
  simp only [Board.hiddenCount, Board.setState]
  rw [hcount, e1, e2]
  omega

/-! ### Facts about fresh boards -/

theorem new_stateAt (w h m i : Nat) :
    (Board.new w h m).stateAt i = CellState.Hidden := by
  simp [Board.new, Board.stateAt, List.getD_eq_getElem?_getD,
    List.getElem?_replicate]
  split <;> rfl

theorem new_mineAt (w h m i : Nat) : (Board.new w h m).mineAt i = false := by
  simp [Board.new, Board.mineAt, List.getD_eq_getElem?_getD,
    List.getElem?_replicate]
  split <;> rfl

/-! ### Bounds and congruence lemmas -/

theorem inBounds_nat {b : Board} {x y : Nat}
    (h : b.inBounds (x : Int) (y : Int) = true) : x < b.width ∧ y < b.height := by
  simp only [Board.inBounds, Bool.and_eq_true, decide_eq_true_eq] at h
  simpa using ⟨h.1.2, h.2⟩

theorem inBounds_of_lt {b : Board} {x y : Nat} (hx : x < b.width)
    (hy : y < b.height) : b.inBounds (x : Int) (y : Int) = true := by
  simp [Board.inBounds, hx, hy]

theorem neighbors_bounds {b : Board} {x y : Nat} {q : Nat × Nat}
    (h : q ∈ b.neighbors x y) : q.1 < b.width ∧ q.2 < b.height := by
  simp only [Board.neighbors, List.mem_map, List.mem_filter] at h
  obtain ⟨p, ⟨-, hin⟩, rfl⟩ := h
  simp only [Board.inBounds, Bool.and_eq_true, decide_eq_true_eq] at hin
  exact ⟨hin.1.2, hin.2⟩

theorem inBounds_congr {r b : Board} (h1 : r.width = b.width)
    (h2 : r.height = b.height) (x y : Int) :
    r.inBounds x y = b.inBounds x y := by
  simp [Board.inBounds, h1, h2]

theorem idx_congr {r b : Board} (h1 : r.width = b.width) (x y : Nat) :
    r.idx x y = b.idx x y := by
  simp [Board.idx, h1]

theorem neighbors_congr {r b : Board} (h1 : r.width = b.width)
    (h2 : r.height = b.height) (x y : Nat) :
    r.neighbors x y = b.neighbors x y := by
  have : (fun p : Int × Int => r.inBounds p.1 p.2) =
      (fun p : Int × Int => b.inBounds p.1 p.2) :=
    funext fun p => inBounds_congr h1 h2 p.1 p.2
  simp [Board.neighbors, this]

theorem mineAt_congr {r b : Board} (h : r.minefield = b.minefield) (i : Nat) :
    r.mineAt i = b.mineAt i := by
  simp [Board.mineAt, h]

theorem adjacentMineCount_congr {r b : Board} (h1 : r.width = b.width)
    (h2 : r.height = b.height) (h3 : r.minefield = b.minefield) (x y : Nat) :
    r.adjacentMineCount x y = b.adjacentMineCount x y := by
  have hf : (fun p : Nat × Nat => r.mineAt (r.idx p.1 p.2)) =
      (fun p : Nat × Nat => b.mineAt (b.idx p.1 p.2)) :=
    funext fun p => by rw [mineAt_congr h3, idx_congr h1]
  simp [Board.adjacentMineCount, neighbors_congr h1 h2, hf]

theorem countAt_congr {r b : Board} (h1 : r.width = b.width)
    (h2 : r.height = b.height) (h3 : r.minefield = b.minefield) (i : Nat) :
    r.countAt i = b.countAt i := by
  simp [Board.countAt, h1, adjacentMineCount_congr h1 h2 h3]

/-! ### The `StepsTo` relation -/

theorem stepsTo_self (b : Board) : StepsTo b b :=
  ⟨rfl, rfl, rfl, rfl, rfl, fun _ => Or.inl rfl⟩

theorem StepsTo.trans {a b c : Board} (h1 : StepsTo a b) (h2 : StepsTo b c) :
    StepsTo a c := by
  obtain ⟨w1, h1', m1, p1, f1, s1⟩ := h1
  obtain ⟨w2, h2', m2, p2, f2, s2⟩ := h2
  refine ⟨w2.trans w1, h2'.trans h1', m2.trans m1, p2.trans p1, f2.trans f1,
    fun i => ?_⟩
  rcases s2 i with hc | ⟨hbH, hbm, hcR⟩
  · rcases s1 i with hb | ⟨haH, ham, hbR⟩
    · exact Or.inl (hc.trans hb)
    · exact Or.inr ⟨haH, ham, by rw [hc, hbR]⟩
  · rcases s1 i with hb | ⟨haH, ham, hbR⟩
    · exact Or.inr ⟨hb ▸ hbH, (mineAt_congr f1 i) ▸ hbm, by
        rw [hcR, countAt_congr w1 h1' f1]⟩
    · rw [hbR] at hbH; exact absurd hbH (by simp)

theorem StepsTo.revealed_preserved {b r : Board} (h : StepsTo b r) {i n : Nat}
    (hr : b.stateAt i = CellState.Revealed n) :
    r.stateAt i = CellState.Revealed n := by
  rcases h.2.2.2.2.2 i with he | ⟨hH, -, -⟩
  · rw [he, hr]
  · rw [hr] at hH; exact absurd hH (by simp)

theorem StepsTo.not_hidden_preserved {b r : Board} (h : StepsTo b r) {i : Nat}
    (hr : b.stateAt i ≠ CellState.Hidden) :
    r.stateAt i ≠ CellState.Hidden := by
  rcases h.2.2.2.2.2 i with he | ⟨hH, -, hR⟩
  · rw [he]; exact hr
  · rw [hR]; simp

theorem StepsTo.mine_state_preserved {b r : Board} (h : StepsTo b r) {i : Nat}
    (hm : b.mineAt i = true) : r.stateAt i = b.stateAt i := by
  rcases h.2.2.2.2.2 i with he | ⟨-, hm', -⟩
  · exact he
  · rw [hm] at hm'; exact absurd hm' (by simp)

theorem StepsTo.mineAt_eq {b r : Board} (h : StepsTo b r) (i : Nat) :
    r.mineAt i = b.mineAt i :=
  mineAt_congr h.2.2.2.2.1 i

theorem stepsTo_setState {b : Board} {i : Nat}
    (h1 : b.stateAt i = CellState.Hidden) (h2 : b.mineAt i = false) :
    StepsTo b (b.setState i (CellState.Revealed (b.countAt i))) := by
  refine ⟨rfl, rfl, rfl, rfl, rfl, fun j => ?_⟩
  by_cases hij : i = j
  · subst hij
    by_cases hlen : i < b.state.length
    · exact Or.inr ⟨h1, h2, setState_stateAt_self b _ hlen⟩
    · exact Or.inl (setState_stateAt_ge b _ (Nat.le_of_not_lt hlen) i)
  · exact Or.inl (setState_stateAt_ne b _ hij)

/-! ### The flood-fill neighbor pass -/

theorem floodNeighbors_spec (ns : List (Nat × Nat)) :
    ∀ (b : Board) (stack : List (Nat × Nat)),
    (∀ q ∈ ns, q.1 < b.width ∧ q.2 < b.height) →
    StepsTo b (b.floodNeighbors ns stack).1 ∧
    (∀ p ∈ stack, p ∈ (b.floodNeighbors ns stack).2) ∧
    2 * (b.floodNeighbors ns stack).1.hiddenCount +
        (b.floodNeighbors ns stack).2.length ≤
      2 * b.hiddenCount + stack.length ∧
    (∀ p ∈ (b.floodNeighbors ns stack).2, p ∈ stack ∨ p ∈ ns) ∧
    (∀ q ∈ ns, b.mineAt (b.idx q.1 q.2) = false →
       (b.floodNeighbors ns stack).1.stateAt (b.idx q.1 q.2) ≠
         CellState.Hidden) ∧
    (∀ p : Nat × Nat, p.1 < b.width → p.2 < b.height →
       b.stateAt (b.idx p.1 p.2) = CellState.Hidden →
       (b.floodNeighbors ns stack).1.stateAt (b.idx p.1 p.2) ≠
         CellState.Hidden →
       (b.floodNeighbors ns stack).1.stateAt (b.idx p.1 p.2) =
           CellState.Revealed (b.countAt (b.idx p.1 p.2)) ∧
         ((b.floodNeighbors ns stack).1.stateAt (b.idx p.1 p.2) =
             CellState.Revealed 0 →
           p ∈ (b.floodNeighbors ns stack).2)) := by
  induction ns with
  | nil =>
    intro b stack _
    refine ⟨stepsTo_self b, fun p hp => hp, Nat.le_refl _, fun p hp => Or.inl hp,
      fun q hq => absurd hq (List.not_mem_nil q), fun p _ _ hH hne => ?_⟩
    exact absurd hH hne
  | cons q rest ih =>
    intro b stack hns
    have hq1 : q.1 < b.width := (hns q (List.mem_cons_self q rest)).1
    have hq2 : q.2 < b.height := (hns q (List.mem_cons_self q rest)).2
    have hlen : b.idx q.1 q.2 < b.state.length := by
      rw [b.hst]; exact idx_lt b hq1 hq2
    have hcntAt : b.countAt (b.idx q.1 q.2) = b.adjacentMineCount q.1 q.2 :=
      countAt_idx b q.2 hq1
    by_cases hcond : b.stateAt (b.idx q.1 q.2) = CellState.Hidden ∧
        b.mineAt (b.idx q.1 q.2) = false
    · have hb2 : StepsTo b (b.setState (b.idx q.1 q.2)
          (CellState.Revealed (b.adjacentMineCount q.1 q.2))) := by
        rw [← hcntAt]; exact stepsTo_setState hcond.1 hcond.2
      have hself : (b.setState (b.idx q.1 q.2)
          (CellState.Revealed (b.adjacentMineCount q.1 q.2))).stateAt
            (b.idx q.1 q.2) =
          CellState.Revealed (b.adjacentMineCount q.1 q.2) :=
        setState_stateAt_self b _ hlen
      have hdec : (b.setState (b.idx q.1 q.2)
          (CellState.Revealed (b.adjacentMineCount q.1 q.2))).hiddenCount + 1 =
          b.hiddenCount :=
        hiddenCount_setState b _ hlen hcond.1 rfl
      have hns2 : ∀ q' ∈ rest,
          q'.1 < (b.setState (b.idx q.1 q.2)
            (CellState.Revealed (b.adjacentMineCount q.1 q.2))).width ∧
          q'.2 < (b.setState (b.idx q.1 q.2)
            (CellState.Revealed (b.adjacentMineCount q.1 q.2))).height := by
        simp only [setState_width, setState_height]
        exact fun q' hq' => hns q' (List.mem_cons_of_mem q hq')
      by_cases hcnt : b.adjacentMineCount q.1 q.2 = 0
      · have hstep : b.floodNeighbors (q :: rest) stack =
            (b.setState (b.idx q.1 q.2)
              (CellState.Revealed (b.adjacentMineCount q.1 q.2))).floodNeighbors
              rest (q :: stack) := by
          simp only [Board.floodNeighbors]
          rw [if_pos hcond, if_pos hcnt]
        rw [hstep]
        obtain ⟨ih1, ih2, ih3, ih4, ih5, ih6⟩ := ih _ (q :: stack) hns2
        simp only [setState_width, setState_height, setState_idx,
          setState_mineAt, setState_countAt] at ih1 ih2 ih3 ih4 ih5 ih6
        refine ⟨hb2.trans ih1, ?_, ?_, ?_, ?_, ?_⟩
        · exact fun p hp => ih2 p (List.mem_cons_of_mem q hp)
        · simp only [List.length_cons] at ih3 ⊢
          omega
        · intro p hp
          rcases ih4 p hp with hp' | hp'
          · rcases List.mem_cons.mp hp' with hp'' | hp''
            · exact Or.inr (hp'' ▸ List.mem_cons_self q rest)
            · exact Or.inl hp''
          · exact Or.inr (List.mem_cons_of_mem q hp')
        · intro q' hq' hmine
          rcases List.mem_cons.mp hq' with hq'' | hq''
          · subst hq''
            exact ih1.not_hidden_preserved (by rw [hself]; simp)
          · refine ih5 q' hq'' ?_
            exact hmine
        · intro p hp1 hp2 hpH hpne
          by_cases hip : b.idx p.1 p.2 = b.idx q.1 q.2
          · have hpq : p = q := idx_inj b hp1 hq1 hip
            subst hpq
            have hfin : ((b.setState (b.idx p.1 p.2)
                (CellState.Revealed (b.adjacentMineCount p.1 p.2))).floodNeighbors
                rest (p :: stack)).1.stateAt (b.idx p.1 p.2) =
                CellState.Revealed (b.adjacentMineCount p.1 p.2) :=
              ih1.revealed_preserved (by rw [hip] at hself ⊢; exact hself)
            refine ⟨by rw [hfin, hcntAt], fun _ => ?_⟩
            exact ih2 p (List.mem_cons_self p stack)
          · have hb2p : (b.setState (b.idx q.1 q.2)
                (CellState.Revealed (b.adjacentMineCount q.1 q.2))).stateAt
                  (b.idx p.1 p.2) = b.stateAt (b.idx p.1 p.2) :=
              setState_stateAt_ne b _ (fun h => hip h.symm)
            exact ih6 p hp1 hp2 (by rw [hb2p]; exact hpH) hpne
      · have hstep : b.floodNeighbors (q :: rest) stack =
            (b.setState (b.idx q.1 q.2)
              (CellState.Revealed (b.adjacentMineCount q.1 q.2))).floodNeighbors
              rest stack := by
          simp only [Board.floodNeighbors]
          rw [if_pos hcond, if_neg hcnt]
        rw [hstep]
        obtain ⟨ih1, ih2, ih3, ih4, ih5, ih6⟩ := ih _ stack hns2
        simp only [setState_width, setState_height, setState_idx,
          setState_mineAt, setState_countAt] at ih1 ih2 ih3 ih4 ih5 ih6
        refine ⟨hb2.trans ih1, ih2, by omega, ?_, ?_, ?_⟩
        · intro p hp
          rcases ih4 p hp with hp' | hp'
          · exact Or.inl hp'
          · exact Or.inr (List.mem_cons_of_mem q hp')
        · intro q' hq' hmine
          rcases List.mem_cons.mp hq' with hq'' | hq''
          · subst hq''
            exact ih1.not_hidden_preserved (by rw [hself]; simp)
          · exact ih5 q' hq'' hmine
        · intro p hp1 hp2 hpH hpne
          by_cases hip : b.idx p.1 p.2 = b.idx q.1 q.2
          · have hpq : p = q := idx_inj b hp1 hq1 hip
            subst hpq
            have hfin : ((b.setState (b.idx p.1 p.2)
                (CellState.Revealed (b.adjacentMineCount p.1 p.2))).floodNeighbors
                rest stack).1.stateAt (b.idx p.1 p.2) =
                CellState.Revealed (b.adjacentMineCount p.1 p.2) :=
              ih1.revealed_preserved (by rw [hip] at hself ⊢; exact hself)
            refine ⟨by rw [hfin, hcntAt], fun h0 => ?_⟩
            rw [hfin] at h0
            exact absurd (CellState.Revealed.inj h0) hcnt
          · have hb2p : (b.setState (b.idx q.1 q.2)
                (CellState.Revealed (b.adjacentMineCount q.1 q.2))).stateAt
                  (b.idx p.1 p.2) = b.stateAt (b.idx p.1 p.2) :=
              setState_stateAt_ne b _ (fun h => hip h.symm)
            exact ih6 p hp1 hp2 (by rw [hb2p]; exact hpH) hpne
    · have hstep : b.floodNeighbors (q :: rest) stack =
          b.floodNeighbors rest stack := by
        simp only [Board.floodNeighbors]
        rw [if_neg hcond]
      rw [hstep]
      obtain ⟨ih1, ih2, ih3, ih4, ih5, ih6⟩ := ih b stack
        (fun q' hq' => hns q' (List.mem_cons_of_mem q hq'))
      refine ⟨ih1, ih2, by omega, ?_, ?_, ih6⟩
      · intro p hp
        rcases ih4 p hp with hp' | hp'
        · exact Or.inl hp'
        · exact Or.inr (List.mem_cons_of_mem q hp')
      · intro q' hq' hmine
        rcases List.mem_cons.mp hq' with hq'' | hq''
        · subst hq''
          have hstate : b.stateAt (b.idx q'.1 q'.2) ≠ CellState.Hidden :=
            fun hH => hcond ⟨hH, hmine⟩
          exact ih1.not_hidden_preserved hstate
        · exact ih5 q' hq'' hmine

theorem StepsTo.stateAt_of_not_hidden {b r : Board} (h : StepsTo b r) {i : Nat}
    (hb : b.stateAt i ≠ CellState.Hidden) : r.stateAt i = b.stateAt i := by
  rcases h.2.2.2.2.2 i with he | ⟨hH, -, -⟩
  · exact he
  · exact absurd hH hb

theorem expanded_of_not_hidden {r b : Board} (hw : r.width = b.width)
    (hh : r.height = b.height) (hf : r.minefield = b.minefield) (p : Nat × Nat)
    (h : ∀ q ∈ b.neighbors p.1 p.2, b.mineAt (b.idx q.1 q.2) = false →
      r.stateAt (b.idx q.1 q.2) ≠ CellState.Hidden) : Expanded r p := by
  intro q hq hqm
  rw [neighbors_congr hw hh] at hq
  rw [idx_congr hw, mineAt_congr hf] at hqm
  rw [idx_congr hw]
  exact h q hq hqm

/-! ### The flood-fill work-list loop -/

theorem floodLoop_spec (fuel : Nat) :
    ∀ (b : Board) (stack : List (Nat × Nat)),
    2 * b.hiddenCount + stack.length < fuel →
    (∀ p ∈ stack, p.1 < b.width ∧ p.2 < b.height) →
    StepsTo b (floodLoop fuel b stack) ∧
    (∀ p ∈ stack, Expanded (floodLoop fuel b stack) p) ∧
    (∀ p : Nat × Nat, p.1 < b.width → p.2 < b.height →
       b.stateAt (b.idx p.1 p.2) = CellState.Hidden →
       (floodLoop fuel b stack).stateAt (b.idx p.1 p.2) =
         CellState.Revealed 0 →
       Expanded (floodLoop fuel b stack) p) := by
  induction fuel with
  | zero => intro b stack hm _; omega
  | succ fuel ih =>
    intro b stack hm hbnd
    match stack with
    | [] =>
      refine ⟨stepsTo_self b, fun p hp => absurd hp (List.not_mem_nil p),
        fun p _ _ hH hR0 => ?_⟩
      rw [show floodLoop (fuel + 1) b [] = b from rfl] at hR0
      rw [hH] at hR0
      exact absurd hR0 (by simp)
    | p :: rest =>
      have hns : ∀ q ∈ b.neighbors p.1 p.2, q.1 < b.width ∧ q.2 < b.height :=
        fun q hq => neighbors_bounds hq
      obtain ⟨fn1, fn2, fn3, fn4, fn5, fn6⟩ :=
        floodNeighbors_spec (b.neighbors p.1 p.2) b rest hns
      have hloopeq : floodLoop (fuel + 1) b (p :: rest) =
          floodLoop fuel (b.floodNeighbors (b.neighbors p.1 p.2) rest).1
            (b.floodNeighbors (b.neighbors p.1 p.2) rest).2 := rfl
      have hm2 : 2 * (b.floodNeighbors (b.neighbors p.1 p.2) rest).1.hiddenCount +
          (b.floodNeighbors (b.neighbors p.1 p.2) rest).2.length < fuel := by
        simp only [List.length_cons] at hm
        omega
      have hbnd2 : ∀ p' ∈ (b.floodNeighbors (b.neighbors p.1 p.2) rest).2,
          p'.1 < (b.floodNeighbors (b.neighbors p.1 p.2) rest).1.width ∧
          p'.2 < (b.floodNeighbors (b.neighbors p.1 p.2) rest).1.height := by
        rw [fn1.1, fn1.2.1]
        intro p' hp'
        rcases fn4 p' hp' with hp'' | hp''
        · exact hbnd p' (List.mem_cons_of_mem p hp'')
        · exact neighbors_bounds hp''
      obtain ⟨ihA, ihB, ihC⟩ := ih _ _ hm2 hbnd2
      rw [hloopeq]
      have hsteps : StepsTo b (floodLoop fuel
          (b.floodNeighbors (b.neighbors p.1 p.2) rest).1
          (b.floodNeighbors (b.neighbors p.1 p.2) rest).2) := fn1.trans ihA
      refine ⟨hsteps, ?_, ?_⟩
      · intro p' hp'
        rcases List.mem_cons.mp hp' with hp'' | hp''
        · subst hp''
          refine expanded_of_not_hidden hsteps.1 hsteps.2.1
            hsteps.2.2.2.2.1 p' (fun q hq hqm => ?_)
          have h5 := fn5 q hq hqm
          exact ihA.not_hidden_preserved h5
        · exact ihB p' (fn2 p' hp'')
      · intro p' h1 h2 hH hR0
        by_cases hb2H : (b.floodNeighbors (b.neighbors p.1 p.2) rest).1.stateAt
            (b.idx p'.1 p'.2) = CellState.Hidden
        · have h1' : p'.1 < (b.floodNeighbors (b.neighbors p.1 p.2) rest).1.width := by
            rw [fn1.1]; exact h1
          have h2' : p'.2 < (b.floodNeighbors (b.neighbors p.1 p.2) rest).1.height := by
            rw [fn1.2.1]; exact h2
          have hidxeq : (b.floodNeighbors (b.neighbors p.1 p.2) rest).1.idx p'.1 p'.2 =
              b.idx p'.1 p'.2 := idx_congr fn1.1 p'.1 p'.2
          refine ihC p' h1' h2' ?_ ?_
          · rw [hidxeq]; exact hb2H
          · rw [hidxeq]; exact hR0
        · obtain ⟨h6a, h6b⟩ := fn6 p' h1 h2 hH hb2H
          have hfix : (floodLoop fuel
              (b.floodNeighbors (b.neighbors p.1 p.2) rest).1
              (b.floodNeighbors (b.neighbors p.1 p.2) rest).2).stateAt
                (b.idx p'.1 p'.2) =
              (b.floodNeighbors (b.neighbors p.1 p.2) rest).1.stateAt
                (b.idx p'.1 p'.2) :=
            ihA.stateAt_of_not_hidden hb2H
          rw [hfix] at hR0
          exact ihB p' (h6b hR0)

/-- `flood_fill_zeroes` seen through `floodLoop_spec`: reveal-only updates,
the start cell ends fully expanded, and every cell the fill reveals with
count 0 ends fully expanded. -/
theorem floodFillZeroes_spec (b : Board) (x y : Nat) (hx : x < b.width)
    (hy : y < b.height) :
    StepsTo b (b.floodFillZeroes x y) ∧
    Expanded (b.floodFillZeroes x y) (x, y) ∧
    (∀ p : Nat × Nat, p.1 < b.width → p.2 < b.height →
       b.stateAt (b.idx p.1 p.2) = CellState.Hidden →
       (b.floodFillZeroes x y).stateAt (b.idx p.1 p.2) =
         CellState.Revealed 0 →
       Expanded (b.floodFillZeroes x y) p) := by
  have hm : 2 * b.hiddenCount + ([(x, y)] : List (Nat × Nat)).length <
      2 * b.hiddenCount + 2 := by simp
  have hbnd : ∀ p ∈ ([(x, y)] : List (Nat × Nat)),
      p.1 < b.width ∧ p.2 < b.height := by
    intro p hp
    rcases List.mem_singleton.mp hp with rfl
    exact ⟨hx, hy⟩
  obtain ⟨h1, h2, h3⟩ := floodLoop_spec _ b [(x, y)] hm hbnd
  exact ⟨h1, h2 (x, y) (List.mem_singleton.mpr rfl), h3⟩

/-! ### List helper lemmas -/

theorem getD_set_self_list {α : Type} (l : List α) {i : Nat}
    (h : i < l.length) (v d : α) : (l.set i v).getD i d = v := by
  simp [List.getD_eq_getElem?_getD, List.getElem?_set_self h]

theorem getD_set_ne_list {α : Type} (l : List α) {i j : Nat} (h : i ≠ j)
    (v d : α) : (l.set i v).getD j d = l.getD j d := by
  simp [List.getD_eq_getElem?_getD, List.getElem?_set_ne h]

theorem all_congr_list {α : Type} (xs : List α) (f g : α → Bool)
    (hfg : ∀ a ∈ xs, f a = g a) : xs.all f = xs.all g := by
  induction xs with
  | nil => rfl
  | cons hd tl ih =>
    have hhd := hfg hd (List.mem_cons_self hd tl)
    have htl := ih (fun a ha => hfg a (List.mem_cons_of_mem hd ha))
    rw [List.all_cons, List.all_cons, hhd, htl]

theorem foldl_set_true_mono (ids : List Nat) (l : List Bool) (j : Nat)
    (h : l.getD j false = true) :
    (ids.foldl (fun m i => m.set i true) l).getD j false = true := by
  induction ids generalizing l with
  | nil => exact h
  | cons a t ih =>
    rw [List.foldl_cons]
    apply ih
    by_cases haj : a = j
    · subst haj
      by_cases hlen : a < l.length
      · rw [getD_set_self_list l hlen]
      · rw [List.set_eq_of_length_le (Nat.le_of_not_lt hlen)]; exact h
    · rw [getD_set_ne_list l haj]; exact h

theorem foldl_set_true_not_mem (ids : List Nat) (l : List Bool) (j : Nat)
    (hj : j ∉ ids) :
    (ids.foldl (fun m i => m.set i true) l).getD j false = l.getD j false := by
  induction ids generalizing l with
  | nil => rfl
  | cons a t ih =>
    rw [List.foldl_cons]
    have haj : a ≠ j := fun h => hj (h ▸ List.mem_cons_self a t)
    rw [ih _ (fun h => hj (List.mem_cons_of_mem a h)), getD_set_ne_list l haj]

theorem foldl_set_true_countP (ids : List Nat) (l : List Bool)
    (hnd : ids.Nodup) (hlt : ∀ j ∈ ids, j < l.length)
    (hfalse : ∀ j ∈ ids, l.getD j false = false) :
    (ids.foldl (fun m i => m.set i true) l).countP (fun v => v) =
      l.countP (fun v => v) + ids.length := by
  induction ids generalizing l with
  | nil => rfl
  | cons a t ih =>
    have ha : a < l.length := hlt a (List.mem_cons_self a t)
    have hla : l[a] = false := by
      have := hfalse a (List.mem_cons_self a t)
      rwa [List.getD_eq_getElem?_getD, List.getElem?_eq_getElem ha] at this
    have hcount : (l.set a true).countP (fun v => v) =
        l.countP (fun v => v) + 1 := by
      rw [List.countP_set _ _ _ _ ha, hla]
      simp
    have hnotmem : a ∉ t := (List.nodup_cons.mp hnd).1
    rw [List.foldl_cons, ih (l.set a true) (List.nodup_cons.mp hnd).2
      (fun j hj => by rw [List.length_set]; exact hlt j (List.mem_cons_of_mem a hj))
      (fun j hj => by
        rw [getD_set_ne_list l (fun h => hnotmem (by rw [h]; exact hj)) true false]
        exact hfalse j (List.mem_cons_of_mem a hj)),
      hcount, List.length_cons]
    omega

theorem countP_eq_zero_of_getD (l : List Bool)
    (h : ∀ i, l.getD i false = false) : l.countP (fun v => v) = 0 := by
  rw [List.countP_eq_zero]
  intro a ha
  obtain ⟨i, hi, rfl⟩ := List.mem_iff_getElem.mp ha
  have := h i
  rw [List.getD_eq_getElem?_getD, List.getElem?_eq_getElem hi] at this
  simp at this ⊢
  exact this

/-! ### Structure of `place_mines_excluding` -/

theorem placeMines_of_placed {b : Board} (shuffle : List Nat → List Nat)
    (e : Nat × Nat) (h : b.minesPlaced = true) :
    b.placeMinesExcluding shuffle e = b := by
  simp [Board.placeMinesExcluding, h]

theorem placeMines_width (b : Board) (shuffle : List Nat → List Nat)
    (e : Nat × Nat) : (b.placeMinesExcluding shuffle e).width = b.width := by
  unfold Board.placeMinesExcluding; split <;> rfl

theorem placeMines_height (b : Board) (shuffle : List Nat → List Nat)
    (e : Nat × Nat) : (b.placeMinesExcluding shuffle e).height = b.height := by
  unfold Board.placeMinesExcluding; split <;> rfl

theorem placeMines_mines (b : Board) (shuffle : List Nat → List Nat)
    (e : Nat × Nat) : (b.placeMinesExcluding shuffle e).mines = b.mines := by
  unfold Board.placeMinesExcluding; split <;> rfl

theorem placeMines_state (b : Board) (shuffle : List Nat → List Nat)
    (e : Nat × Nat) : (b.placeMinesExcluding shuffle e).state = b.state := by
  unfold Board.placeMinesExcluding; split <;> rfl

theorem placeMines_stateAt (b : Board) (shuffle : List Nat → List Nat)
    (e : Nat × Nat) (i : Nat) :
    (b.placeMinesExcluding shuffle e).stateAt i = b.stateAt i := by
  simp [Board.stateAt, placeMines_state]

theorem placeMines_placed (b : Board) (shuffle : List Nat → List Nat)
    (e : Nat × Nat) : (b.placeMinesExcluding shuffle e).minesPlaced = true := by
  unfold Board.placeMinesExcluding
  split
  · assumption
  · rfl

theorem placeMines_mineAt_mono {b : Board} (shuffle : List Nat → List Nat)
    (e : Nat × Nat) {j : Nat} (h : b.mineAt j = true) :
    (b.placeMinesExcluding shuffle e).mineAt j = true := by
  unfold Board.placeMinesExcluding
  split
  · exact h
  · exact foldl_set_true_mono _ _ _ h

/-- The indices whose minefield entries `place_mines_excluding` sets all
come from the shuffled candidate list: when `shuffle` permutes, none of
them is the excluded index. -/
theorem placeMines_mineAt_of_not_set {b : Board}
    {shuffle : List Nat → List Nat} (hs : ∀ l, List.Perm (shuffle l) l)
    (e : Nat × Nat) {j : Nat} (hj : j = b.idx e.1 e.2) :
    (b.placeMinesExcluding shuffle e).mineAt j = b.mineAt j := by
  unfold Board.placeMinesExcluding
  split
  · rfl
  · have hnot : j ∉ (shuffle ((List.range (b.width * b.height)).filter
        (fun i => i != b.idx e.1 e.2))).take b.mines := by
      intro hmem
      have h1 : j ∈ shuffle ((List.range (b.width * b.height)).filter
          (fun i => i != b.idx e.1 e.2)) :=
        List.mem_of_mem_take hmem
      have h2 : j ∈ (List.range (b.width * b.height)).filter
          (fun i => i != b.idx e.1 e.2) :=
        ((hs _).mem_iff).mp h1
      have h3 := (List.mem_filter.mp h2).2
      rw [hj] at h3
      simp at h3
    exact foldl_set_true_not_mem _ _ _ hnot

/-! ### Structure of `reveal` -/

theorem stateAt_of_len_le {b : Board} {i : Nat} (h : b.state.length ≤ i) :
    b.stateAt i = CellState.Hidden := by
  simp [Board.stateAt, List.getD_eq_getElem?_getD, List.getElem?_eq_none h]

theorem reveal_not_inBounds {b : Board} (shuffle : List Nat → List Nat)
    {x y : Nat} (h : b.inBounds (x : Int) (y : Int) = false) :
    b.reveal shuffle x y = (b, true) := by
  simp [Board.reveal, h]

theorem reveal_spec (shuffle : List Nat → List Nat) (b : Board) (x y : Nat)
    (hin : b.inBounds (x : Int) (y : Int) = true) (b1 : Board)
    (hb1 : b1 = (if b.minesPlaced then b
      else b.placeMinesExcluding shuffle (x, y))) :
    (b1.stateAt (b1.idx x y) ≠ CellState.Hidden →
       b.reveal shuffle x y = (b1, true)) ∧
    (b1.stateAt (b1.idx x y) = CellState.Hidden →
       b1.mineAt (b1.idx x y) = true → b.reveal shuffle x y = (b1, false)) ∧
    (b1.stateAt (b1.idx x y) = CellState.Hidden →
       b1.mineAt (b1.idx x y) = false →
       (b.reveal shuffle x y).2 = true ∧
       StepsTo b1 (b.reveal shuffle x y).1 ∧
       (b.reveal shuffle x y).1.stateAt (b1.idx x y) =
         CellState.Revealed (b1.adjacentMineCount x y)) := by
  have hb1w : b1.width = b.width := by
    rw [hb1]; cases hp : b.minesPlaced <;> simp [placeMines_width]
  have hb1h : b1.height = b.height := by
    rw [hb1]; cases hp : b.minesPlaced <;> simp [placeMines_height]
  have hx : x < b1.width := by rw [hb1w]; exact (inBounds_nat hin).1
  have hy : y < b1.height := by rw [hb1h]; exact (inBounds_nat hin).2
  have hlen : b1.idx x y < b1.state.length := by
    rw [b1.hst]; exact idx_lt b1 hx hy
  have hrev : b.reveal shuffle x y =
      (match b1.stateAt (b1.idx x y) with
       | CellState.Hidden =>
         if b1.mineAt (b1.idx x y) then (b1, false)
         else
           if b1.adjacentMineCount x y = 0 then
             ((b1.setState (b1.idx x y)
               (CellState.Revealed (b1.adjacentMineCount x y))).floodFillZeroes
                 x y, true)
           else (b1.setState (b1.idx x y)
             (CellState.Revealed (b1.adjacentMineCount x y)), true)
       | _ => (b1, true)) := by
    rw [Board.reveal, if_pos hin, ← hb1]
  refine ⟨fun hns => ?_, fun hH hm => ?_, fun hH hm => ?_⟩
  · rw [hrev]
    rcases hc : b1.stateAt (b1.idx x y) with _ | n | _
    · exact absurd hc hns
    · rfl
    · rfl
  · rw [hrev, hH, hm]
    rfl
  · have hsteps2 : StepsTo b1 (b1.setState (b1.idx x y)
        (CellState.Revealed (b1.adjacentMineCount x y))) := by
      rw [← countAt_idx b1 y hx]
      exact stepsTo_setState hH hm
    have hself : (b1.setState (b1.idx x y)
        (CellState.Revealed (b1.adjacentMineCount x y))).stateAt (b1.idx x y) =
        CellState.Revealed (b1.adjacentMineCount x y) :=
      setState_stateAt_self b1 _ hlen
    rw [hrev, hH, hm]
    by_cases hcnt : b1.adjacentMineCount x y = 0
    · rw [if_neg Bool.false_ne_true, if_pos hcnt]
      obtain ⟨hf1, -, -⟩ := floodFillZeroes_spec
        (b1.setState (b1.idx x y)
          (CellState.Revealed (b1.adjacentMineCount x y))) x y
        (by simpa using hx) (by simpa using hy)
      refine ⟨rfl, hsteps2.trans hf1, ?_⟩
      exact hf1.revealed_preserved hself
    · rw [if_neg Bool.false_ne_true, if_neg hcnt]
      exact ⟨rfl, hsteps2, hself⟩

/-! ### Structure of `toggle_flag` -/

theorem toggleFlag_not_inBounds {b : Board} {x y : Nat}
    (h : b.inBounds (x : Int) (y : Int) = false) : b.toggleFlag x y = b := by
  simp [Board.toggleFlag, h]

theorem toggleFlag_width (b : Board) (x y : Nat) :
    (b.toggleFlag x y).width = b.width := by
  unfold Board.toggleFlag; split <;> rfl

theorem toggleFlag_height (b : Board) (x y : Nat) :
    (b.toggleFlag x y).height = b.height := by
  unfold Board.toggleFlag; split <;> rfl

theorem toggleFlag_mines (b : Board) (x y : Nat) :
    (b.toggleFlag x y).mines = b.mines := by
  unfold Board.toggleFlag; split <;> rfl

theorem toggleFlag_minesPlaced (b : Board) (x y : Nat) :
    (b.toggleFlag x y).minesPlaced = b.minesPlaced := by
  unfold Board.toggleFlag; split <;> rfl

theorem toggleFlag_minefield (b : Board) (x y : Nat) :
    (b.toggleFlag x y).minefield = b.minefield := by
  unfold Board.toggleFlag; split <;> rfl

theorem toggleFlag_stateAt_cases (b : Board) (x y j : Nat) :
    (b.toggleFlag x y).stateAt j = b.stateAt j ∨
    (b.stateAt j = CellState.Hidden ∧
      (b.toggleFlag x y).stateAt j = CellState.Flagged) ∨
    (b.stateAt j = CellState.Flagged ∧
      (b.toggleFlag x y).stateAt j = CellState.Hidden) := by
  by_cases hin : b.inBounds (x : Int) (y : Int) = true
  · have heq : b.toggleFlag x y = b.setState (b.idx x y)
        (match b.stateAt (b.idx x y) with
         | CellState.Hidden => CellState.Flagged
         | CellState.Flagged => CellState.Hidden
         | CellState.Revealed n => CellState.Revealed n) := by
      rw [Board.toggleFlag, if_pos hin]
    by_cases hij : b.idx x y = j
    · subst hij
      by_cases hlen : b.idx x y < b.state.length
      · rcases hc : b.stateAt (b.idx x y) with _ | n | _
        · refine Or.inr (Or.inl ⟨rfl, ?_⟩)
          rw [heq, hc]
          exact setState_stateAt_self b _ hlen
        · refine Or.inl ?_
          rw [heq, hc]
          exact setState_stateAt_self b _ hlen
        · refine Or.inr (Or.inr ⟨rfl, ?_⟩)
          rw [heq, hc]
          exact setState_stateAt_self b _ hlen
      · refine Or.inl ?_
        rw [heq]
        exact setState_stateAt_ge b _ (Nat.le_of_not_lt hlen) _
    · refine Or.inl ?_
      rw [heq]
      exact setState_stateAt_ne b _ hij
  · have hin' : b.inBounds (x : Int) (y : Int) = false := by
      simpa using hin
    rw [toggleFlag_not_inBounds hin']
    exact Or.inl rfl

/-! ### Structure of `chord` -/

theorem chord_eq_of_not_eligible {b : Board} {x y : Nat}
    (h : b.chordEligible x y = false) : b.chord x y = (b, true) := by
  by_cases hin : b.inBounds (x : Int) (y : Int) = true
  · rcases hc : b.stateAt (b.idx x y) with _ | n | _
    · rw [Board.chord, if_pos hin, hc]
    · rw [Board.chordEligible, hin, hc] at h
      simp only [Bool.true_and] at h
      rw [Board.chord, if_pos hin]
      simp only [hc]
      by_cases hn : 0 < n
      · rw [if_pos hn]
        by_cases hfc : b.flagCountAround x y = n
        · exfalso
          rw [hfc] at h
          simp [hn] at h
        · rw [if_neg hfc]
      · rw [if_neg hn]
    · rw [Board.chord, if_pos hin, hc]
  · rw [Board.chord, if_neg hin]

theorem chord_eq_of_eligible {b : Board} {x y : Nat}
    (h : b.chordEligible x y = true) :
    b.inBounds (x : Int) (y : Int) = true ∧
    ∃ n, b.stateAt (b.idx x y) = CellState.Revealed n ∧ 0 < n ∧
      b.flagCountAround x y = n ∧
      b.chord x y = b.chordNeighbors (b.neighbors x y) true := by
  rw [Board.chordEligible, Bool.and_eq_true] at h
  rcases h with ⟨hin, hrest⟩
  refine ⟨hin, ?_⟩
  rcases hc : b.stateAt (b.idx x y) with _ | n | _
  · rw [hc] at hrest; exact absurd hrest (by simp)
  · rw [hc, Bool.and_eq_true] at hrest
    rcases hrest with ⟨hn, hfc⟩
    have hn' : 0 < n := of_decide_eq_true hn
    have hfc' : b.flagCountAround x y = n := by
      simpa using hfc
    refine ⟨n, rfl, hn', hfc', ?_⟩
    rw [Board.chord, if_pos hin]
    simp only [hc]
    rw [if_pos hn', if_pos hfc']
  · rw [hc] at hrest; exact absurd hrest (by simp)

/-! ### The chord neighbor batch -/

theorem chordNeighbors_spec (ns : List (Nat × Nat)) :
    ∀ (b : Board) (safe : Bool),
    (∀ q ∈ ns, q.1 < b.width ∧ q.2 < b.height) →
    StepsTo b (b.chordNeighbors ns safe).1 ∧
    (b.chordNeighbors ns safe).2 =
      (safe && ns.all (fun q =>
        !(decide (b.stateAt (b.idx q.1 q.2) = CellState.Hidden) &&
          b.mineAt (b.idx q.1 q.2)))) ∧
    (∀ q ∈ ns, b.stateAt (b.idx q.1 q.2) = CellState.Hidden →
       b.mineAt (b.idx q.1 q.2) = false →
       ((b.chordNeighbors ns safe).1.stateAt (b.idx q.1 q.2)).isRevealed =
         true) := by
  induction ns with
  | nil =>
    intro b safe _
    exact ⟨stepsTo_self b, by simp [Board.chordNeighbors],
      fun q hq => absurd hq (List.not_mem_nil q)⟩
  | cons q rest ih =>
    intro b safe hns
    have hq1 : q.1 < b.width := (hns q (List.mem_cons_self q rest)).1
    have hq2 : q.2 < b.height := (hns q (List.mem_cons_self q rest)).2
    have hlen : b.idx q.1 q.2 < b.state.length := by
      rw [b.hst]; exact idx_lt b hq1 hq2
    have hcntAt : b.countAt (b.idx q.1 q.2) = b.adjacentMineCount q.1 q.2 :=
      countAt_idx b q.2 hq1
    by_cases hH : b.stateAt (b.idx q.1 q.2) = CellState.Hidden
    · by_cases hm : b.mineAt (b.idx q.1 q.2) = true
      · have hstep : b.chordNeighbors (q :: rest) safe =
            b.chordNeighbors rest false := by
          simp only [Board.chordNeighbors]
          rw [if_pos hH, if_pos hm]
        obtain ⟨ih1, ih2, ih3⟩ := ih b false
          (fun q' hq' => hns q' (List.mem_cons_of_mem q hq'))
        rw [hstep]
        refine ⟨ih1, ?_, ?_⟩
        · rw [ih2]
          simp [List.all_cons, hH, hm]
        · intro q' hq' hH' hm'
          rcases List.mem_cons.mp hq' with hq'' | hq''
          · subst hq''
            rw [hm] at hm'
            exact absurd hm' (by simp)
          · exact ih3 q' hq'' hH' hm'
      · have hmf : b.mineAt (b.idx q.1 q.2) = false := by
          simpa using hm
        have hstep : b.chordNeighbors (q :: rest) safe =
            (if b.adjacentMineCount q.1 q.2 = 0 then
              (b.setState (b.idx q.1 q.2)
                (CellState.Revealed (b.adjacentMineCount q.1 q.2))).floodFillZeroes
                q.1 q.2
            else
              b.setState (b.idx q.1 q.2)
                (CellState.Revealed
                  (b.adjacentMineCount q.1 q.2))).chordNeighbors rest safe := by
          simp only [Board.chordNeighbors]
          rw [if_pos hH, if_neg hm]
        have hsb2 : StepsTo b (b.setState (b.idx q.1 q.2)
            (CellState.Revealed (b.adjacentMineCount q.1 q.2))) := by
          rw [← hcntAt]; exact stepsTo_setState hH hmf
        have hself : (b.setState (b.idx q.1 q.2)
            (CellState.Revealed (b.adjacentMineCount q.1 q.2))).stateAt
              (b.idx q.1 q.2) =
            CellState.Revealed (b.adjacentMineCount q.1 q.2) :=
          setState_stateAt_self b _ hlen
        have hsb3 : StepsTo b (if b.adjacentMineCount q.1 q.2 = 0 then
            (b.setState (b.idx q.1 q.2)
              (CellState.Revealed (b.adjacentMineCount q.1 q.2))).floodFillZeroes
              q.1 q.2
          else
            b.setState (b.idx q.1 q.2)
              (CellState.Revealed (b.adjacentMineCount q.1 q.2))) := by
          by_cases hcnt : b.adjacentMineCount q.1 q.2 = 0
          · rw [if_pos hcnt]
            exact hsb2.trans (floodFillZeroes_spec _ q.1 q.2
              (by simpa using hq1) (by simpa using hq2)).1
          · rw [if_neg hcnt]
            exact hsb2
        have hb3self : (if b.adjacentMineCount q.1 q.2 = 0 then
            (b.setState (b.idx q.1 q.2)
              (CellState.Revealed (b.adjacentMineCount q.1 q.2))).floodFillZeroes
              q.1 q.2
          else
            b.setState (b.idx q.1 q.2)
              (CellState.Revealed (b.adjacentMineCount q.1 q.2))).stateAt
            (b.idx q.1 q.2) =
            CellState.Revealed (b.adjacentMineCount q.1 q.2) := by
          by_cases hcnt : b.adjacentMineCount q.1 q.2 = 0
          · rw [if_pos hcnt]
            exact (floodFillZeroes_spec _ q.1 q.2 (by simpa using hq1)
              (by simpa using hq2)).1.revealed_preserved hself
          · rw [if_neg hcnt]
            exact hself
        obtain ⟨ih1, ih2, ih3⟩ := ih _ safe (by
          rw [hsb3.1, hsb3.2.1]
          exact fun q' hq' => hns q' (List.mem_cons_of_mem q hq'))
        rw [hstep]
        have hidx3 : ∀ a c : Nat, (if b.adjacentMineCount q.1 q.2 = 0 then
            (b.setState (b.idx q.1 q.2)
              (CellState.Revealed (b.adjacentMineCount q.1 q.2))).floodFillZeroes
              q.1 q.2
          else
            b.setState (b.idx q.1 q.2)
              (CellState.Revealed (b.adjacentMineCount q.1 q.2))).idx a c =
            b.idx a c := fun a c => idx_congr hsb3.1 a c
        refine ⟨hsb3.trans ih1, ?_, ?_⟩
        · rw [ih2]
          have hall : rest.all (fun q' =>
              !(decide ((if b.adjacentMineCount q.1 q.2 = 0 then
                  (b.setState (b.idx q.1 q.2)
                    (CellState.Revealed
                      (b.adjacentMineCount q.1 q.2))).floodFillZeroes q.1 q.2
                else
                  b.setState (b.idx q.1 q.2)
                    (CellState.Revealed (b.adjacentMineCount q.1 q.2))).stateAt
                    ((if b.adjacentMineCount q.1 q.2 = 0 then
                  (b.setState (b.idx q.1 q.2)
                    (CellState.Revealed
                      (b.adjacentMineCount q.1 q.2))).floodFillZeroes q.1 q.2
                else
                  b.setState (b.idx q.1 q.2)
                    (CellState.Revealed (b.adjacentMineCount q.1 q.2))).idx
                      q'.1 q'.2) =
                  CellState.Hidden) &&
                (if b.adjacentMineCount q.1 q.2 = 0 then
                  (b.setState (b.idx q.1 q.2)
                    (CellState.Revealed
                      (b.adjacentMineCount q.1 q.2))).floodFillZeroes q.1 q.2
                else
                  b.setState (b.idx q.1 q.2)
                    (CellState.Revealed (b.adjacentMineCount q.1 q.2))).mineAt
                  ((if b.adjacentMineCount q.1 q.2 = 0 then
                  (b.setState (b.idx q.1 q.2)
                    (CellState.Revealed
                      (b.adjacentMineCount q.1 q.2))).floodFillZeroes q.1 q.2
                else
                  b.setState (b.idx q.1 q.2)
                    (CellState.Revealed (b.adjacentMineCount q.1 q.2))).idx
                    q'.1 q'.2))) =
              rest.all (fun q' =>
                !(decide (b.stateAt (b.idx q'.1 q'.2) = CellState.Hidden) &&
                  b.mineAt (b.idx q'.1 q'.2))) := by
            refine all_congr_list rest _ _ (fun q' _ => ?_)
            rw [hidx3, hsb3.mineAt_eq]
            by_cases hmq : b.mineAt (b.idx q'.1 q'.2) = true
            · rw [hsb3.mine_state_preserved hmq]
            · have hmq' : b.mineAt (b.idx q'.1 q'.2) = false := by
                simpa using hmq
              rw [hmq']
              simp
          rw [hall]
          simp [List.all_cons, hH, hmf]
        · intro q' hq' hH' hm'
          rcases List.mem_cons.mp hq' with hq'' | hq''
          · subst hq''
            have := ih1.revealed_preserved hb3self
            rw [this]
            rfl
          · by_cases hb3H : (if b.adjacentMineCount q.1 q.2 = 0 then
                (b.setState (b.idx q.1 q.2)
                  (CellState.Revealed
                    (b.adjacentMineCount q.1 q.2))).floodFillZeroes q.1 q.2
              else
                b.setState (b.idx q.1 q.2)
                  (CellState.Revealed (b.adjacentMineCount q.1 q.2))).stateAt
                  (b.idx q'.1 q'.2) = CellState.Hidden
            · have := ih3 q' hq'' (by rw [hidx3]; exact hb3H)
                (by rw [hidx3, hsb3.mineAt_eq]; exact hm')
              rw [hidx3] at this
              exact this
            · rcases hsb3.2.2.2.2.2 (b.idx q'.1 q'.2) with he | ⟨-, -, hR⟩
              · rw [he] at hb3H
                exact absurd hH' hb3H
              · have := ih1.revealed_preserved hR
                rw [this]
                rfl
    · have hstep : b.chordNeighbors (q :: rest) safe =
          b.chordNeighbors rest safe := by
        simp only [Board.chordNeighbors]
        rw [if_neg hH]
      obtain ⟨ih1, ih2, ih3⟩ := ih b safe
        (fun q' hq' => hns q' (List.mem_cons_of_mem q hq'))
      rw [hstep]
      refine ⟨ih1, ?_, ?_⟩
      · rw [ih2]
        simp [List.all_cons, hH]
      · intro q' hq' hH' hm'
        rcases List.mem_cons.mp hq' with hq'' | hq''
        · subst hq''
          exact absurd hH' hH
        · exact ih3 q' hq'' hH' hm'

/-! ### Characterizing the neighbor iterator -/

theorem mem_neighbors (b : Board) (x y : Nat) (p : Nat × Nat) :
    p ∈ b.neighbors x y ↔
      (p.1 < b.width ∧ p.2 < b.height ∧ p ≠ (x, y) ∧
       ((p.1 : Int) - (x : Int)).natAbs ≤ 1 ∧
       ((p.2 : Int) - (y : Int)).natAbs ≤ 1) := by
  constructor
  · intro h
    simp only [Board.neighbors, neighborOffsets, List.mem_map,
      List.mem_filter, List.mem_flatMap, List.mem_cons,
      List.mem_singleton, List.not_mem_nil] at h
    obtain ⟨u, ⟨⟨d, ⟨⟨dy, hdy, ⟨dx, hdx, rfl⟩⟩, hnz⟩, rfl⟩, hin⟩, rfl⟩ := h
    simp only [Board.inBounds, Bool.and_eq_true, decide_eq_true_eq] at hin
    obtain ⟨⟨⟨h0x, h0y⟩, hxw⟩, hyh⟩ := hin
    simp only [Bool.not_eq_true', Bool.and_eq_false_iff, beq_eq_false_iff_ne,
      ne_eq] at hnz
    refine ⟨hxw, hyh, ?_, ?_, ?_⟩
    · intro heq
      have e1 : ((x : Int) + dx).toNat = x :=
        congrArg Prod.fst heq
      have e2 : ((y : Int) + dy).toNat = y :=
        congrArg Prod.snd heq
      rcases hnz with h | h
      · exact h (by omega)
      · exact h (by omega)
    · have hdx' : dx = -1 ∨ dx = 0 ∨ dx = 1 := by
        rcases hdx with h | h | h | h
        · exact Or.inl h
        · exact Or.inr (Or.inl h)
        · exact Or.inr (Or.inr h)
        · exact h.elim
      dsimp only
      omega
    · have hdy' : dy = -1 ∨ dy = 0 ∨ dy = 1 := by
        rcases hdy with h | h | h | h
        · exact Or.inl h
        · exact Or.inr (Or.inl h)
        · exact Or.inr (Or.inr h)
        · exact h.elim
      dsimp only
      omega
  · rintro ⟨h1, h2, hne, ha1, ha2⟩
    simp only [Board.neighbors, neighborOffsets, List.mem_map,
      List.mem_filter, List.mem_flatMap, List.mem_cons,
      List.mem_singleton, List.not_mem_nil]
    refine ⟨((x : Int) + ((p.1 : Int) - (x : Int)),
        (y : Int) + ((p.2 : Int) - (y : Int))), ⟨⟨((p.1 : Int) - (x : Int),
        (p.2 : Int) - (y : Int)), ⟨⟨(p.2 : Int) - (y : Int), by omega,
        ⟨(p.1 : Int) - (x : Int), by omega, rfl⟩⟩, ?_⟩, rfl⟩, ?_⟩, ?_⟩
    · simp only [Bool.not_eq_true', Bool.and_eq_false_iff,
        beq_eq_false_iff_ne, ne_eq]
      by_cases hdx0 : (p.1 : Int) - (x : Int) = 0
      · refine Or.inr ?_
        intro hdy0
        apply hne
        have e1 : p.1 = x := by omega
        have e2 : p.2 = y := by omega
        exact Prod.ext e1 e2
      · exact Or.inl hdx0
    · simp only [Board.inBounds, Bool.and_eq_true, decide_eq_true_eq]
      refine ⟨⟨⟨by omega, by omega⟩, by omega⟩, by omega⟩
    · apply Prod.ext <;> simp

theorem nodup_neighbors (b : Board) (x y : Nat) : (b.neighbors x y).Nodup := by
  unfold Board.neighbors
  apply List.Nodup.map_on
  · intro u hu v hv heq
    rcases List.mem_filter.mp hu with ⟨-, hinu⟩
    rcases List.mem_filter.mp hv with ⟨-, hinv⟩
    simp only [Board.inBounds, Bool.and_eq_true, decide_eq_true_eq] at hinu hinv
    have e1 : u.1.toNat = v.1.toNat := congrArg Prod.fst heq
    have e2 : u.2.toNat = v.2.toNat := congrArg Prod.snd heq
    have : u.1 = v.1 := by omega
    have : u.2 = v.2 := by omega
    exact Prod.ext ‹u.1 = v.1› ‹u.2 = v.2›
  · apply List.Nodup.filter
    apply List.Nodup.map
    · intro d1 d2 hd
      have e1 : (x : Int) + d1.1 = (x : Int) + d2.1 := congrArg Prod.fst hd
      have e2 : (y : Int) + d1.2 = (y : Int) + d2.2 := congrArg Prod.snd hd
      have : d1.1 = d2.1 := by omega
      have : d1.2 = d2.2 := by omega
      exact Prod.ext ‹d1.1 = d2.1› ‹d1.2 = d2.2›
    · apply List.Nodup.filter
      decide

/-- The neighbor-counting loop agrees with the specification's phrase
"number of mine cells among the up-to-8 grid-adjacent neighbors". -/
theorem adjacentMineCount_eq_spec (b : Board) (x y : Nat) :
    b.adjacentMineCount x y = specMineCount b x y := by
  rw [Board.adjacentMineCount, specMineCount]
  have hnd : ((b.neighbors x y).filter
      (fun p => b.mineAt (b.idx p.1 p.2))).Nodup :=
    (nodup_neighbors b x y).filter _
  rw [← List.toFinset_card_of_nodup hnd]
  congr 1
  ext p
  simp only [List.mem_toFinset, List.mem_filter, mem_neighbors,
    Finset.mem_filter, Finset.mem_product, Finset.mem_range]
  tauto

/-! ### `is_win` as a predicate -/

theorem isRevealed_iff {c : CellState} :
    c.isRevealed = true ↔ ∃ n, c = CellState.Revealed n := by
  cases c <;> simp [CellState.isRevealed]

theorem isWin_iff_xy (b : Board) :
    b.isWin = true ↔ ∀ x y, x < b.width → y < b.height →
      (b.mineAt (b.idx x y) = true ∨
       ∃ n, b.stateAt (b.idx x y) = CellState.Revealed n) := by
  rw [Board.isWin]
  simp only [List.all_eq_true, List.mem_range, Bool.or_eq_true, isRevealed_iff]
  constructor
  · intro h x y hx hy
    exact h y hy x hx
  · intro h y hy x hx
    exact h x y hx hy

theorem isWin_iff_idx (b : Board) :
    b.isWin = true ↔ ∀ i, i < b.width * b.height →
      (b.mineAt i = true ∨ (b.stateAt i).isRevealed = true) := by
  rw [isWin_iff_xy]
  constructor
  · intro h i hi
    have hw : 0 < b.width := by
      rcases Nat.eq_zero_or_pos b.width with h0 | h0
      · rw [h0] at hi; omega
      · exact h0
    have hx : i % b.width < b.width := Nat.mod_lt _ hw
    have hy : i / b.width < b.height := by
      rw [Nat.div_lt_iff_lt_mul hw]
      rw [Nat.mul_comm] at hi
      exact hi
    have hidx : b.idx (i % b.width) (i / b.width) = i := by
      rw [Board.idx, Nat.mul_comm (i / b.width) b.width]
      exact Nat.div_add_mod i b.width
    rcases h (i % b.width) (i / b.width) hx hy with hm | ⟨n, hn⟩
    · rw [hidx] at hm; exact Or.inl hm
    · rw [hidx] at hn
      exact Or.inr (isRevealed_iff.mpr ⟨n, hn⟩)
  · intro h x y hx hy
    rcases h (b.idx x y) (idx_lt b hx hy) with hm | hr
    · exact Or.inl hm
    · exact Or.inr (isRevealed_iff.mp hr)

/-! ### Per-operation preservation lemmas -/

theorem StepsTo.countOK {b r : Board} (h : StepsTo b r) (hc : CountOK b) :
    CountOK r := by
  intro i hi n hr
  rw [h.1, h.2.1] at hi
  rcases h.2.2.2.2.2 i with he | ⟨hH, hm, hR⟩
  · rw [he] at hr
    obtain ⟨hm', hn'⟩ := hc i hi n hr
    refine ⟨by rw [h.mineAt_eq]; exact hm', ?_⟩
    rw [countAt_congr h.1 h.2.1 h.2.2.2.2.1]
    exact hn'
  · rw [hR] at hr
    have hn : b.countAt i = n := CellState.Revealed.inj hr
    refine ⟨by rw [h.mineAt_eq]; exact hm, ?_⟩
    rw [countAt_congr h.1 h.2.1 h.2.2.2.2.1]
    exact hn.symm

theorem stepsTo_chord (b : Board) (x y : Nat) : StepsTo b (b.chord x y).1 := by
  by_cases he : b.chordEligible x y = true
  · obtain ⟨-, n, -, -, -, heq⟩ := chord_eq_of_eligible he
    rw [heq]
    exact (chordNeighbors_spec (b.neighbors x y) b true
      (fun q hq => neighbors_bounds hq)).1
  · rw [chord_eq_of_not_eligible (by simpa using he)]
    exact stepsTo_self b

theorem chord_cases (b : Board) (x y : Nat) :
    b.chord x y = (b, true) ∨
    (b.chordEligible x y = true ∧ StepsTo b (b.chord x y).1) := by
  by_cases he : b.chordEligible x y = true
  · exact Or.inr ⟨he, stepsTo_chord b x y⟩
  · exact Or.inl (chord_eq_of_not_eligible (by simpa using he))

theorem reveal_cases3 (shuffle : List Nat → List Nat) (b : Board) (x y : Nat) :
    (b.reveal shuffle x y).1 = b ∨
    (b.minesPlaced = true ∧ StepsTo b (b.reveal shuffle x y).1) ∨
    (b.minesPlaced = false ∧
      StepsTo (b.placeMinesExcluding shuffle (x, y))
        (b.reveal shuffle x y).1) := by
  by_cases hin : b.inBounds (x : Int) (y : Int) = true
  · cases hp : b.minesPlaced
    · obtain ⟨h1, h2, h3⟩ := reveal_spec shuffle b x y hin
        (b.placeMinesExcluding shuffle (x, y)) (by rw [hp]; simp)
      refine Or.inr (Or.inr ⟨rfl, ?_⟩)
      by_cases hH : (b.placeMinesExcluding shuffle (x, y)).stateAt
          ((b.placeMinesExcluding shuffle (x, y)).idx x y) = CellState.Hidden
      · by_cases hm : (b.placeMinesExcluding shuffle (x, y)).mineAt
            ((b.placeMinesExcluding shuffle (x, y)).idx x y) = true
        · rw [h2 hH hm]
          exact stepsTo_self _
        · exact (h3 hH (by simpa using hm)).2.1
      · rw [h1 hH]
        exact stepsTo_self _
    · obtain ⟨h1, h2, h3⟩ := reveal_spec shuffle b x y hin b (by rw [hp]; simp)
      refine Or.inr (Or.inl ⟨rfl, ?_⟩)
      by_cases hH : b.stateAt (b.idx x y) = CellState.Hidden
      · by_cases hm : b.mineAt (b.idx x y) = true
        · rw [h2 hH hm]
          exact stepsTo_self _
        · exact (h3 hH (by simpa using hm)).2.1
      · rw [h1 hH]
        exact stepsTo_self _
  · rw [reveal_not_inBounds shuffle (by simpa using hin)]
    exact Or.inl rfl

theorem applyOp_inv (shuffle : List Nat → List Nat) (op : Op) {b : Board}
    (hb : Inv b) : Inv (applyOp shuffle b op) := by
  cases op with
  | reveal x y =>
    show Inv (b.reveal shuffle x y).1
    rcases reveal_cases3 shuffle b x y with heq | ⟨hp, hst⟩ | ⟨hp, hst⟩
    · rw [heq]; exact hb
    · refine ⟨fun hnp => ?_, hst.countOK hb.2⟩
      rw [hst.2.2.2.1, hp] at hnp
      exact absurd hnp (by simp)
    · have hnr : NoRevealedCells (b.placeMinesExcluding shuffle (x, y)) := by
        intro i
        rw [placeMines_stateAt]
        exact hb.1 hp i
      have hco : CountOK (b.placeMinesExcluding shuffle (x, y)) := by
        intro i hi n hr
        have := hnr i
        rw [hr] at this
        exact absurd this (by simp [CellState.isRevealed])
      refine ⟨fun hnp => ?_, hst.countOK hco⟩
      rw [hst.2.2.2.1, placeMines_placed] at hnp
      exact absurd hnp (by simp)
  | toggle x y =>
    show Inv (b.toggleFlag x y)
    constructor
    · intro hnp i
      rw [toggleFlag_minesPlaced] at hnp
      rcases toggleFlag_stateAt_cases b x y i with he | ⟨-, hF⟩ | ⟨-, hH⟩
      · rw [he]; exact hb.1 hnp i
      · rw [hF]; rfl
      · rw [hH]; rfl
    · intro i hi n hr
      rw [toggleFlag_width, toggleFlag_height] at hi
      rcases toggleFlag_stateAt_cases b x y i with he | ⟨-, hF⟩ | ⟨-, hH⟩
      · rw [he] at hr
        obtain ⟨hm', hn'⟩ := hb.2 i hi n hr
        refine ⟨by rw [mineAt_congr (toggleFlag_minefield b x y)]; exact hm', ?_⟩
        rw [countAt_congr (toggleFlag_width b x y) (toggleFlag_height b x y)
          (toggleFlag_minefield b x y)]
        exact hn'
      · rw [hF] at hr; exact absurd hr (by simp)
      · rw [hH] at hr; exact absurd hr (by simp)
  | chord x y =>
    show Inv (b.chord x y).1
    rcases chord_cases b x y with heq | ⟨he, hst⟩
    · rw [heq]; exact hb
    · refine ⟨fun hnp => ?_, hst.countOK hb.2⟩
      rw [hst.2.2.2.1] at hnp
      obtain ⟨-, n, hrev, -, -, -⟩ := chord_eq_of_eligible he
      have := hb.1 hnp (b.idx x y)
      rw [hrev] at this
      exact absurd this (by simp [CellState.isRevealed])

theorem applyOp_width (shuffle : List Nat → List Nat) (op : Op) (b : Board) :
    (applyOp shuffle b op).width = b.width ∧
    (applyOp shuffle b op).height = b.height := by
  cases op with
  | reveal x y =>
    show (b.reveal shuffle x y).1.width = b.width ∧
      (b.reveal shuffle x y).1.height = b.height
    rcases reveal_cases3 shuffle b x y with heq | ⟨-, hst⟩ | ⟨-, hst⟩
    · rw [heq]; exact ⟨rfl, rfl⟩
    · exact ⟨hst.1, hst.2.1⟩
    · rw [hst.1, hst.2.1]
      exact ⟨placeMines_width b shuffle _, placeMines_height b shuffle _⟩
  | toggle x y => exact ⟨toggleFlag_width b x y, toggleFlag_height b x y⟩
  | chord x y => exact ⟨(stepsTo_chord b x y).1, (stepsTo_chord b x y).2.1⟩

theorem applyOp_revealed (shuffle : List Nat → List Nat) (op : Op) {b : Board}
    {i n : Nat} (h : b.stateAt i = CellState.Revealed n) :
    (applyOp shuffle b op).stateAt i = CellState.Revealed n := by
  cases op with
  | reveal x y =>
    show (b.reveal shuffle x y).1.stateAt i = CellState.Revealed n
    rcases reveal_cases3 shuffle b x y with heq | ⟨-, hst⟩ | ⟨-, hst⟩
    · rw [heq]; exact h
    · exact hst.revealed_preserved h
    · exact hst.revealed_preserved (by rw [placeMines_stateAt]; exact h)
  | toggle x y =>
    show (b.toggleFlag x y).stateAt i = CellState.Revealed n
    rcases toggleFlag_stateAt_cases b x y i with he | ⟨hH, -⟩ | ⟨hF, -⟩
    · rw [he]; exact h
    · rw [h] at hH; exact absurd hH (by simp)
    · rw [h] at hF; exact absurd hF (by simp)
  | chord x y => exact (stepsTo_chord b x y).revealed_preserved h

theorem applyOp_mineAt_mono (shuffle : List Nat → List Nat) (op : Op)
    {b : Board} {j : Nat} (h : b.mineAt j = true) :
    (applyOp shuffle b op).mineAt j = true := by
  cases op with
  | reveal x y =>
    show (b.reveal shuffle x y).1.mineAt j = true
    rcases reveal_cases3 shuffle b x y with heq | ⟨-, hst⟩ | ⟨-, hst⟩
    · rw [heq]; exact h
    · rw [hst.mineAt_eq]; exact h
    · rw [hst.mineAt_eq]
      exact placeMines_mineAt_mono shuffle _ h
  | toggle x y =>
    show (b.toggleFlag x y).mineAt j = true
    rw [mineAt_congr (toggleFlag_minefield b x y)]
    exact h
  | chord x y =>
    show (b.chord x y).1.mineAt j = true
    rw [(stepsTo_chord b x y).mineAt_eq]
    exact h

theorem applyOp_isWin (shuffle : List Nat → List Nat) (op : Op) {b : Board}
    (h : b.isWin = true) : (applyOp shuffle b op).isWin = true := by
  rw [isWin_iff_idx] at h ⊢
  intro i hi
  rw [(applyOp_width shuffle op b).1, (applyOp_width shuffle op b).2] at hi
  rcases h i hi with hm | hr
  · exact Or.inl (applyOp_mineAt_mono shuffle op hm)
  · obtain ⟨n, hn⟩ := isRevealed_iff.mp hr
    exact Or.inr (isRevealed_iff.mpr ⟨n, applyOp_revealed shuffle op hn⟩)

/-! ### Lifting per-operation lemmas to operation sequences -/

theorem applyOps_cons (shuffle : List Nat → List Nat) (b : Board) (op : Op)
    (ops : List Op) :
    applyOps shuffle b (op :: ops) = applyOps shuffle (applyOp shuffle b op) ops :=
  rfl

theorem applyOps_inv (shuffle : List Nat → List Nat) (ops : List Op) :
    ∀ b : Board, Inv b → Inv (applyOps shuffle b ops) := by
  induction ops with
  | nil => exact fun b hb => hb
  | cons op ops ih =>
    intro b hb
    rw [applyOps_cons]
    exact ih _ (applyOp_inv shuffle op hb)

theorem applyOps_width (shuffle : List Nat → List Nat) (ops : List Op) :
    ∀ b : Board, (applyOps shuffle b ops).width = b.width ∧
      (applyOps shuffle b ops).height = b.height := by
  induction ops with
  | nil => exact fun b => ⟨rfl, rfl⟩
  | cons op ops ih =>
    intro b
    rw [applyOps_cons]
    obtain ⟨hw, hh⟩ := ih (applyOp shuffle b op)
    rw [hw, hh]
    exact applyOp_width shuffle op b

theorem applyOps_revealed (shuffle : List Nat → List Nat) (ops : List Op) :
    ∀ (b : Board) (i n : Nat), b.stateAt i = CellState.Revealed n →
      (applyOps shuffle b ops).stateAt i = CellState.Revealed n := by
  induction ops with
  | nil => exact fun b i n h => h
  | cons op ops ih =>
    intro b i n h
    rw [applyOps_cons]
    exact ih _ i n (applyOp_revealed shuffle op h)

theorem applyOps_isWin (shuffle : List Nat → List Nat) (ops : List Op) :
    ∀ b : Board, b.isWin = true → (applyOps shuffle b ops).isWin = true := by
  induction ops with
  | nil => exact fun b h => h
  | cons op ops ih =>
    intro b h
    rw [applyOps_cons]
    exact ih _ (applyOp_isWin shuffle op h)

theorem applyOps_noReveal (shuffle : List Nat → List Nat) (ops : List Op) :
    ∀ b : Board, (∀ op ∈ ops, op.isReveal = false) →
      (applyOps shuffle b ops).minesPlaced = b.minesPlaced ∧
      (applyOps shuffle b ops).minefield = b.minefield ∧
      (applyOps shuffle b ops).width = b.width ∧
      (applyOps shuffle b ops).height = b.height := by
  induction ops with
  | nil => exact fun b _ => ⟨rfl, rfl, rfl, rfl⟩
  | cons op ops ih =>
    intro b hops
    rw [applyOps_cons]
    have hops' : ∀ op' ∈ ops, op'.isReveal = false :=
      fun op' hop' => hops op' (List.mem_cons_of_mem op hop')
    have hop : op.isReveal = false := hops op (List.mem_cons_self op ops)
    have hfields : (applyOp shuffle b op).minesPlaced = b.minesPlaced ∧
        (applyOp shuffle b op).minefield = b.minefield ∧
        (applyOp shuffle b op).width = b.width ∧
        (applyOp shuffle b op).height = b.height := by
      cases op with
      | reveal x y => exact absurd hop (by simp [Op.isReveal])
      | toggle x y =>
        exact ⟨toggleFlag_minesPlaced b x y, toggleFlag_minefield b x y,
          toggleFlag_width b x y, toggleFlag_height b x y⟩
      | chord x y =>
        exact ⟨(stepsTo_chord b x y).2.2.2.1, (stepsTo_chord b x y).2.2.2.2.1,
          (stepsTo_chord b x y).1, (stepsTo_chord b x y).2.1⟩
    obtain ⟨h1, h2, h3, h4⟩ := ih (applyOp shuffle b op) hops'
    exact ⟨h1.trans hfields.1, h2.trans hfields.2.1,
      h3.trans hfields.2.2.1, h4.trans hfields.2.2.2⟩

/-! ### The claims -/

/-- C5: `is_win()` returns `true` iff every cell of the grid is either a
mine or in state `Revealed(_)`; flags placed on mines are irrelevant.
`isWin` is a pure function of the board (`Board → Bool`), so it cannot
modify the board. -/
theorem is_win_spec (b : Board) :
    b.isWin = true ↔ ∀ x y, x < b.width → y < b.height →
      (b.mineAt (b.idx x y) = true ∨
       ∃ n, b.stateAt (b.idx x y) = CellState.Revealed n) :=
  isWin_iff_xy b

/-- C8: `chord(x, y)` on any cell that is not `Revealed(n)` with `n > 0`
(`Revealed(0)`, `Hidden`, `Flagged`, or out of bounds), or whose flagged
neighbor count differs from `n`, returns the board unchanged (every field,
hence every cell state) together with `true`. -/
theorem chord_gating (b : Board) (x y : Nat)
    (h : b.chordEligible x y = false) : b.chord x y = (b, true) :=
  chord_eq_of_not_eligible h

theorem chord_gating_witness :
    (Board.new 2 2 1).chordEligible 0 0 = false ∧
    (Board.new 2 2 1).chord 0 0 = (Board.new 2 2 1, true) :=
  ⟨by decide, chord_gating (Board.new 2 2 1) 0 0 (by decide)⟩

/-- C2: after any sequence of `reveal`, `chord`, `toggle_flag` operations
on a freshly constructed board (mine placement happens lazily inside the
first reveal), every cell in state `Revealed(n)` is not a mine, and `n`
equals the exact number of mine cells among its up-to-8 grid-adjacent
neighbors (diagonals included, expressed by the spec-side
`specMineCount`). -/
theorem count_correctness (shuffle : List Nat → List Nat) (W H M : Nat)
    (ops : List Op) (x y n : Nat) (hx : x < W) (hy : y < H)
    (hrev : (applyOps shuffle (Board.new W H M) ops).stateAt
      ((applyOps shuffle (Board.new W H M) ops).idx x y) =
      CellState.Revealed n) :
    (applyOps shuffle (Board.new W H M) ops).mineAt
      ((applyOps shuffle (Board.new W H M) ops).idx x y) = false ∧
    n = specMineCount (applyOps shuffle (Board.new W H M) ops) x y := by
  have hnew : Inv (Board.new W H M) := by
    refine ⟨fun _ i => ?_, fun i hi n h => ?_⟩
    · rw [new_stateAt]; rfl
    · rw [new_stateAt] at h
      exact absurd h (by simp)
  have hinv : Inv (applyOps shuffle (Board.new W H M) ops) :=
    applyOps_inv shuffle ops _ hnew
  obtain ⟨hw, hh⟩ := applyOps_width shuffle ops (Board.new W H M)
  have hx' : x < (applyOps shuffle (Board.new W H M) ops).width := by
    rw [hw]; exact hx
  have hy' : y < (applyOps shuffle (Board.new W H M) ops).height := by
    rw [hh]; exact hy
  obtain ⟨hm, hn⟩ := hinv.2 _ (idx_lt _ hx' hy') n hrev
  refine ⟨hm, ?_⟩
  rw [hn, countAt_idx _ y hx', adjacentMineCount_eq_spec]

theorem count_correctness_witness :
    (applyOps (fun l => l) (Board.new 1 1 0) [Op.reveal 0 0]).stateAt
      ((applyOps (fun l => l) (Board.new 1 1 0) [Op.reveal 0 0]).idx 0 0) =
      CellState.Revealed 0 ∧
    (applyOps (fun l => l) (Board.new 1 1 0) [Op.reveal 0 0]).mineAt
      ((applyOps (fun l => l) (Board.new 1 1 0) [Op.reveal 0 0]).idx 0 0) =
      false ∧
    0 = specMineCount (applyOps (fun l => l) (Board.new 1 1 0)
      [Op.reveal 0 0]) 0 0 :=
  ⟨by decide,
   (count_correctness (fun l => l) 1 1 0 [Op.reveal 0 0] 0 0 0 (by decide)
     (by decide) (by decide)).1,
   (count_correctness (fun l => l) 1 1 0 [Op.reveal 0 0] 0 0 0 (by decide)
     (by decide) (by decide)).2⟩

/-- C6: `Revealed(n)` is terminal — no sequence of `reveal`, `toggle_flag`
or `chord` operations (including their internal flood fills) ever changes a
revealed cell's state or count — and consequently once `is_win()` is true
it stays true under every further operation sequence. -/
theorem revealed_terminal (shuffle : List Nat → List Nat) (b : Board)
    (ops : List Op) (i n : Nat) :
    (b.stateAt i = CellState.Revealed n →
      (applyOps shuffle b ops).stateAt i = CellState.Revealed n) ∧
    (b.isWin = true → (applyOps shuffle b ops).isWin = true) :=
  ⟨fun h => applyOps_revealed shuffle ops b i n h,
   fun h => applyOps_isWin shuffle ops b h⟩

theorem revealed_terminal_witness :
    (((Board.new 1 1 0).reveal (fun l => l) 0 0).1.stateAt 0 =
        CellState.Revealed 0 ∧
     ((Board.new 1 1 0).reveal (fun l => l) 0 0).1.isWin = true) ∧
    (applyOps (fun l => l) ((Board.new 1 1 0).reveal (fun l => l) 0 0).1
        [Op.toggle 0 0, Op.chord 0 0, Op.reveal 0 0]).stateAt 0 =
      CellState.Revealed 0 ∧
    (applyOps (fun l => l) ((Board.new 1 1 0).reveal (fun l => l) 0 0).1
        [Op.toggle 0 0, Op.chord 0 0, Op.reveal 0 0]).isWin = true :=
  ⟨⟨by decide, by decide⟩,
   (revealed_terminal (fun l => l) ((Board.new 1 1 0).reveal (fun l => l) 0 0).1
     [Op.toggle 0 0, Op.chord 0 0, Op.reveal 0 0] 0 0).1 (by decide),
   (revealed_terminal (fun l => l) ((Board.new 1 1 0).reveal (fun l => l) 0 0).1
     [Op.toggle 0 0, Op.chord 0 0, Op.reveal 0 0] 0 0).2 (by decide)⟩

/-- C1: for every board constructed with `new(W, H, M)` with
`M < W*H - 1`, after the first in-bounds `reveal(x, y)` the board receives
(any number of non-reveal operations may precede it), the cell `(x, y)` is
not a mine and that first reveal returns `true`.  `shuffle` is `rand`'s
shuffle, assumed to permute its input. -/
theorem first_click_safety (shuffle : List Nat → List Nat)
    (hs : ∀ l, List.Perm (shuffle l) l) (W H M : Nat) (hM : M < W * H - 1)
    (ops : List Op) (hops : ∀ op ∈ ops, op.isReveal = false) (x y : Nat)
    (hx : x < W) (hy : y < H) :
    ((applyOps shuffle (Board.new W H M) ops).reveal shuffle x y).2 = true ∧
    ((applyOps shuffle (Board.new W H M) ops).reveal shuffle x y).1.mineAt
      (y * W + x) = false := by
  obtain ⟨hp0, hf0, hw0, hh0⟩ :=
    applyOps_noReveal shuffle ops (Board.new W H M) hops
  have hall : ∀ i, (applyOps shuffle (Board.new W H M) ops).mineAt i = false :=
    fun i => by rw [mineAt_congr hf0]; exact new_mineAt W H M i
  have hx0 : x < (applyOps shuffle (Board.new W H M) ops).width := by
    rw [hw0]; exact hx
  have hy0 : y < (applyOps shuffle (Board.new W H M) ops).height := by
    rw [hh0]; exact hy
  have hin : (applyOps shuffle (Board.new W H M) ops).inBounds
      (x : Int) (y : Int) = true := inBounds_of_lt hx0 hy0
  obtain ⟨h1, h2, h3⟩ := reveal_spec shuffle
    (applyOps shuffle (Board.new W H M) ops) x y hin
    ((applyOps shuffle (Board.new W H M) ops).placeMinesExcluding shuffle
      (x, y)) (by rw [hp0]; rfl)
  have hmine1 : ((applyOps shuffle (Board.new W H M) ops).placeMinesExcluding
      shuffle (x, y)).mineAt
        ((applyOps shuffle (Board.new W H M) ops).idx x y) = false := by
    rw [placeMines_mineAt_of_not_set hs (x, y) rfl]
    exact hall _
  have hidx1 : ((applyOps shuffle (Board.new W H M) ops).placeMinesExcluding
      shuffle (x, y)).idx x y =
      (applyOps shuffle (Board.new W H M) ops).idx x y :=
    idx_congr (placeMines_width _ _ _) x y
  have hyx : y * W + x = (applyOps shuffle (Board.new W H M) ops).idx x y := by
    rw [Board.idx, hw0]
    rfl
  by_cases hH : ((applyOps shuffle (Board.new W H M) ops).placeMinesExcluding
      shuffle (x, y)).stateAt
        (((applyOps shuffle (Board.new W H M) ops).placeMinesExcluding
          shuffle (x, y)).idx x y) = CellState.Hidden
  · have hm' : ((applyOps shuffle (Board.new W H M) ops).placeMinesExcluding
        shuffle (x, y)).mineAt
          (((applyOps shuffle (Board.new W H M) ops).placeMinesExcluding
            shuffle (x, y)).idx x y) = false := by
      rw [hidx1]; exact hmine1
    obtain ⟨hsafe, hst, -⟩ := h3 hH hm'
    refine ⟨hsafe, ?_⟩
    rw [hyx, hst.mineAt_eq]
    exact hmine1
  · have heq := h1 hH
    refine ⟨by rw [heq], ?_⟩
    rw [heq, hyx]
    exact hmine1

theorem first_click_safety_witness :
    1 < 2 * 2 - 1 ∧ 1 < 2 ∧
    ((applyOps (fun l => l) (Board.new 2 2 1) [Op.toggle 0 0]).reveal
      (fun l => l) 1 1).2 = true ∧
    ((applyOps (fun l => l) (Board.new 2 2 1) [Op.toggle 0 0]).reveal
      (fun l => l) 1 1).1.mineAt (1 * 2 + 1) = false :=
  ⟨by decide, by decide,
   (first_click_safety (fun l => l) (fun l => List.Perm.refl l) 2 2 1
     (by decide) [Op.toggle 0 0] (by decide) 1 1 (by decide) (by decide)).1,
   (first_click_safety (fun l => l) (fun l => List.Perm.refl l) 2 2 1
     (by decide) [Op.toggle 0 0] (by decide) 1 1 (by decide) (by decide)).2⟩

/-- C7: `place_mines_excluding` is a no-op when mines are placed; otherwise
(from the unmined state the program always calls it in) it marks exactly
`M` distinct cells as mines, all different from the excluded in-bounds
coordinate, sets the placed flag, and no later call can change the
layout. -/
theorem place_mines_spec (shuffle : List Nat → List Nat)
    (hs : ∀ l, List.Perm (shuffle l) l) (b : Board) (ex ey : Nat)
    (hex : ex < b.width) (hey : ey < b.height)
    (hm : b.mines < b.width * b.height) :
    (b.minesPlaced = true → b.placeMinesExcluding shuffle (ex, ey) = b) ∧
    (b.minesPlaced = false → (∀ i, b.mineAt i = false) →
      (b.placeMinesExcluding shuffle (ex, ey)).minesPlaced = true ∧
      (b.placeMinesExcluding shuffle (ex, ey)).minefield.countP
        (fun v => v) = b.mines ∧
      (b.placeMinesExcluding shuffle (ex, ey)).mineAt (b.idx ex ey) = false ∧
      ∀ (shuffle2 : List Nat → List Nat) (e2 : Nat × Nat),
        (b.placeMinesExcluding shuffle (ex, ey)).placeMinesExcluding
          shuffle2 e2 = b.placeMinesExcluding shuffle (ex, ey)) := by
  refine ⟨fun hp => placeMines_of_placed shuffle _ hp, fun hp hall => ?_⟩
  have hfield : (b.placeMinesExcluding shuffle (ex, ey)).minefield =
      ((shuffle ((List.range (b.width * b.height)).filter
        (fun i => i != b.idx ex ey))).take b.mines).foldl
        (fun m i => m.set i true) b.minefield := by
    rw [Board.placeMinesExcluding,
      if_neg (by rw [hp]; exact Bool.false_ne_true)]
  have hk : b.idx ex ey < b.width * b.height := idx_lt b hex hey
  have hclen : ((List.range (b.width * b.height)).filter
      (fun i => i != b.idx ex ey)).length = b.width * b.height - 1 := by
    have h1 := List.countP_eq_length_filter
      (fun i => i != b.idx ex ey) (List.range (b.width * b.height))
    have h2 := List.length_eq_countP_add_countP
      (fun i => i != b.idx ex ey) (List.range (b.width * b.height))
    rw [List.length_range] at h2
    have hfun : (fun a : Nat => decide ¬((a != b.idx ex ey) = true)) =
        (fun a : Nat => a == b.idx ex ey) := by
      funext a
      by_cases h : a = b.idx ex ey <;> simp [h]
    rw [hfun] at h2
    have h3 : (List.range (b.width * b.height)).countP
        (fun a : Nat => a == b.idx ex ey) = 1 := by
      have := List.count_eq_one_of_mem (List.nodup_range _)
        (List.mem_range.mpr hk)
      simpa [List.count] using this
    omega
  have hslen : (shuffle ((List.range (b.width * b.height)).filter
      (fun i => i != b.idx ex ey))).length = b.width * b.height - 1 := by
    rw [(hs _).length_eq]
    exact hclen
  have hidslen : ((shuffle ((List.range (b.width * b.height)).filter
      (fun i => i != b.idx ex ey))).take b.mines).length = b.mines := by
    rw [List.length_take, hslen]
    omega
  have hcnd : ((List.range (b.width * b.height)).filter
      (fun i => i != b.idx ex ey)).Nodup :=
    (List.nodup_range _).filter _
  have hsnd : (shuffle ((List.range (b.width * b.height)).filter
      (fun i => i != b.idx ex ey))).Nodup :=
    (hs _).symm.nodup hcnd
  have hnd : ((shuffle ((List.range (b.width * b.height)).filter
      (fun i => i != b.idx ex ey))).take b.mines).Nodup :=
    List.Nodup.sublist (List.take_sublist _ _) hsnd
  have hmem : ∀ j ∈ (shuffle ((List.range (b.width * b.height)).filter
      (fun i => i != b.idx ex ey))).take b.mines,
      j ∈ (List.range (b.width * b.height)).filter
        (fun i => i != b.idx ex ey) :=
    fun j hj => ((hs _).mem_iff).mp (List.mem_of_mem_take hj)
  have hlt : ∀ j ∈ (shuffle ((List.range (b.width * b.height)).filter
      (fun i => i != b.idx ex ey))).take b.mines,
      j < b.minefield.length := by
    intro j hj
    rw [b.hmf]
    exact List.mem_range.mp (List.mem_filter.mp (hmem j hj)).1
  have hfalse : ∀ j ∈ (shuffle ((List.range (b.width * b.height)).filter
      (fun i => i != b.idx ex ey))).take b.mines,
      b.minefield.getD j false = false := fun j _ => hall j
  refine ⟨placeMines_placed b shuffle _, ?_, ?_, ?_⟩
  · rw [hfield, foldl_set_true_countP _ _ hnd hlt hfalse, hidslen,
      countP_eq_zero_of_getD b.minefield (fun i => hall i), Nat.zero_add]
  · rw [placeMines_mineAt_of_not_set hs (ex, ey) rfl]
    exact hall _
  · intro shuffle2 e2
    exact placeMines_of_placed shuffle2 e2 (placeMines_placed b shuffle _)

theorem place_mines_spec_witness :
    (Board.new 2 2 1).minesPlaced = false ∧
    ((Board.new 2 2 1).placeMinesExcluding (fun l => l) (0, 0)).minesPlaced =
      true ∧
    ((Board.new 2 2 1).placeMinesExcluding (fun l => l) (0, 0)).minefield.countP
      (fun v => v) = 1 ∧
    ((Board.new 2 2 1).placeMinesExcluding (fun l => l) (0, 0)).mineAt
      ((Board.new 2 2 1).idx 0 0) = false :=
  ⟨by decide,
   ((place_mines_spec (fun l => l) (fun l => List.Perm.refl l)
     (Board.new 2 2 1) 0 0 (by decide) (by decide) (by decide)).2 (by decide)
     (fun i => new_mineAt 2 2 1 i)).1,
   ((place_mines_spec (fun l => l) (fun l => List.Perm.refl l)
     (Board.new 2 2 1) 0 0 (by decide) (by decide) (by decide)).2 (by decide)
     (fun i => new_mineAt 2 2 1 i)).2.1,
   ((place_mines_spec (fun l => l) (fun l => List.Perm.refl l)
     (Board.new 2 2 1) 0 0 (by decide) (by decide) (by decide)).2 (by decide)
     (fun i => new_mineAt 2 2 1 i)).2.2.1⟩

/-- C9: whenever `reveal(x, y)` returns `false` (a mine was hit) on a board
that, like every board the program constructs, has no mines while
`mines_placed` is false, the board is returned exactly unchanged — in
particular mines were already placed on entry, so that call performs no
placement. -/
theorem reveal_false_atomic (shuffle : List Nat → List Nat)
    (hs : ∀ l, List.Perm (shuffle l) l) (b : Board)
    (hb : b.minesPlaced = false → ∀ i, b.mineAt i = false) (x y : Nat)
    (hfalse : (b.reveal shuffle x y).2 = false) :
    (b.reveal shuffle x y).1 = b ∧ b.minesPlaced = true := by
  by_cases hin : b.inBounds (x : Int) (y : Int) = true
  · cases hp : b.minesPlaced
    · exfalso
      obtain ⟨h1, h2, h3⟩ := reveal_spec shuffle b x y hin
        (b.placeMinesExcluding shuffle (x, y)) (by rw [hp]; rfl)
      have hm1 : (b.placeMinesExcluding shuffle (x, y)).mineAt
          ((b.placeMinesExcluding shuffle (x, y)).idx x y) = false := by
        rw [idx_congr (placeMines_width _ _ _),
          placeMines_mineAt_of_not_set hs (x, y) rfl]
        exact hb hp _
      by_cases hH : (b.placeMinesExcluding shuffle (x, y)).stateAt
          ((b.placeMinesExcluding shuffle (x, y)).idx x y) = CellState.Hidden
      · have := (h3 hH hm1).1
        rw [this] at hfalse
        exact absurd hfalse (by simp)
      · rw [h1 hH] at hfalse
        exact absurd hfalse (by simp)
    · obtain ⟨h1, h2, h3⟩ := reveal_spec shuffle b x y hin b (by rw [hp]; rfl)
      refine ⟨?_, rfl⟩
      by_cases hH : b.stateAt (b.idx x y) = CellState.Hidden
      · by_cases hmm : b.mineAt (b.idx x y) = true
        · rw [h2 hH hmm]
        · have := (h3 hH (by simpa using hmm)).1
          rw [this] at hfalse
          exact absurd hfalse (by simp)
      · rw [h1 hH] at hfalse
        exact absurd hfalse (by simp)
  · rw [reveal_not_inBounds shuffle (by simpa using hin)] at hfalse
    exact absurd hfalse (by simp)

theorem reveal_false_atomic_witness :
    ((((Board.new 2 2 1).reveal (fun l => l) 1 1).1.reveal
      (fun l => l) 0 0).2 = false) ∧
    (((Board.new 2 2 1).reveal (fun l => l) 1 1).1.reveal
      (fun l => l) 0 0).1 = ((Board.new 2 2 1).reveal (fun l => l) 1 1).1 ∧
    ((Board.new 2 2 1).reveal (fun l => l) 1 1).1.minesPlaced = true :=
  ⟨by decide,
   (reveal_false_atomic (fun l => l) (fun l => List.Perm.refl l)
     ((Board.new 2 2 1).reveal (fun l => l) 1 1).1
     (fun hp => absurd hp (by decide)) 0 0 (by decide)).1,
   (reveal_false_atomic (fun l => l) (fun l => List.Perm.refl l)
     ((Board.new 2 2 1).reveal (fun l => l) 1 1).1
     (fun hp => absurd hp (by decide)) 0 0 (by decide)).2⟩

/-- C10: `cell_at` validates nothing — it reads the flat array at
`y*width + x`.  In bounds it returns exactly cell `(x, y)`; for
out-of-bounds coordinates whose flat index is still below `width*height`
(for example `x = width`, `y = 0` on a board with `height ≥ 2`) it returns
the state of the different, in-bounds cell `(0, 1)`; the access only fails
(`none`, the `Vec` index panic) when `y*width + x ≥ width*height`. -/
theorem cell_at_aliasing (b : Board) :
    (∀ x y : Nat, b.inBounds (x : Int) (y : Int) = true →
       b.cellAt x y = some (b.stateAt (b.idx x y))) ∧
    (0 < b.width → 2 ≤ b.height →
       b.inBounds (b.width : Int) (0 : Int) = false ∧
       b.inBounds (0 : Int) (1 : Int) = true ∧
       b.cellAt b.width 0 = some (b.stateAt (b.idx 0 1))) ∧
    (∀ x y : Nat, b.width * b.height ≤ y * b.width + x →
       b.cellAt x y = none) := by
  refine ⟨fun x y hin => ?_, fun hw hh => ?_, fun x y hge => ?_⟩
  · have hlt : b.idx x y < b.state.length := by
      rw [b.hst]
      exact idx_lt b (inBounds_nat hin).1 (inBounds_nat hin).2
    rw [Board.cellAt, List.get?_eq_getElem?, List.getElem?_eq_getElem hlt,
      stateAt_eq_getElem b hlt]
  · have hwlt : b.width < b.state.length := by
      rw [b.hst]
      have : b.width * 2 ≤ b.width * b.height := Nat.mul_le_mul_left _ hh
      omega
    have hidx1 : b.idx b.width 0 = b.width := by simp [Board.idx]
    have hidx2 : b.idx 0 1 = b.width := by simp [Board.idx]
    refine ⟨?_, ?_, ?_⟩
    · simp [Board.inBounds]
    · exact @inBounds_of_lt b 0 1 (by simpa using hw) (by omega)
    · rw [Board.cellAt, hidx1, hidx2, List.get?_eq_getElem?,
        List.getElem?_eq_getElem hwlt, stateAt_eq_getElem b hwlt]
  · rw [Board.cellAt, List.get?_eq_getElem?]
    apply List.getElem?_eq_none
    rw [b.hst]
    exact hge

theorem cell_at_aliasing_witness :
    ((Board.new 3 2 0).inBounds (1 : Int) (1 : Int) = true ∧
     (Board.new 3 2 0).cellAt 1 1 =
       some ((Board.new 3 2 0).stateAt ((Board.new 3 2 0).idx 1 1))) ∧
    ((Board.new 3 2 0).inBounds ((Board.new 3 2 0).width : Int) (0 : Int) =
       false ∧
     (Board.new 3 2 0).inBounds (0 : Int) (1 : Int) = true ∧
     (Board.new 3 2 0).cellAt (Board.new 3 2 0).width 0 =
       some ((Board.new 3 2 0).stateAt ((Board.new 3 2 0).idx 0 1))) ∧
    (Board.new 3 2 0).cellAt 5 1 = none :=
  ⟨⟨by decide, (cell_at_aliasing (Board.new 3 2 0)).1 1 1 (by decide)⟩,
   (cell_at_aliasing (Board.new 3 2 0)).2.1 (by decide) (by decide),
   (cell_at_aliasing (Board.new 3 2 0)).2.2 5 1 (by decide)⟩

/-- C4: chording a `Revealed(n)` cell (`n > 0`) whose flagged-neighbor
count equals `n` reveals every hidden non-mine neighbor — processing never
stops early at a mine — and returns `false` exactly when at least one
hidden neighbor is a mine. -/
theorem chord_batch (b : Board) (x y n : Nat) (hx : x < b.width)
    (hy : y < b.height)
    (hrev : b.stateAt (b.idx x y) = CellState.Revealed n) (hn : 0 < n)
    (hflag : b.flagCountAround x y = n) :
    ((b.chord x y).2 = false ↔
      ∃ q ∈ b.neighbors x y, b.stateAt (b.idx q.1 q.2) = CellState.Hidden ∧
        b.mineAt (b.idx q.1 q.2) = true) ∧
    (∀ q ∈ b.neighbors x y, b.stateAt (b.idx q.1 q.2) = CellState.Hidden →
       b.mineAt (b.idx q.1 q.2) = false →
       ((b.chord x y).1.stateAt (b.idx q.1 q.2)).isRevealed = true) := by
  have he : b.chordEligible x y = true := by
    rw [Board.chordEligible, inBounds_of_lt hx hy]
    simp [hrev, hn, hflag]
  obtain ⟨-, m, hrev', hm0, hfc, heq⟩ := chord_eq_of_eligible he
  rw [heq]
  obtain ⟨cn1, cn2, cn3⟩ := chordNeighbors_spec (b.neighbors x y) b true
    (fun q hq => neighbors_bounds hq)
  refine ⟨?_, cn3⟩
  rw [cn2, Bool.true_and]
  constructor
  · intro h
    obtain ⟨q, hq, hp⟩ := List.all_eq_false.mp h
    refine ⟨q, hq, ?_⟩
    simpa using hp
  · rintro ⟨q, hq, hH, hm⟩
    apply List.all_eq_false.mpr
    exact ⟨q, hq, by simp [hH, hm]⟩

theorem chord_batch_witness :
    (((Board.new 2 2 1).reveal (fun l => l) 1 1).1.toggleFlag 1 0).stateAt
      ((((Board.new 2 2 1).reveal (fun l => l) 1 1).1.toggleFlag 1 0).idx 1 1) =
      CellState.Revealed 1 ∧
    (((Board.new 2 2 1).reveal (fun l => l) 1 1).1.toggleFlag
      1 0).flagCountAround 1 1 = 1 ∧
    ((((Board.new 2 2 1).reveal (fun l => l) 1 1).1.toggleFlag 1 0).chord
      1 1).2 = false ∧
    (((((Board.new 2 2 1).reveal (fun l => l) 1 1).1.toggleFlag 1 0).chord
      1 1).1.stateAt
        ((((Board.new 2 2 1).reveal (fun l => l) 1 1).1.toggleFlag
          1 0).idx 0 1)).isRevealed = true :=
  ⟨by decide, by decide,
   (chord_batch (((Board.new 2 2 1).reveal (fun l => l) 1 1).1.toggleFlag 1 0)
     1 1 1 (by decide) (by decide) (by decide) (by decide) (by decide)).1.mpr
     ⟨(0, 0), by decide, by decide, by decide⟩,
   (chord_batch (((Board.new 2 2 1).reveal (fun l => l) 1 1).1.toggleFlag 1 0)
     1 1 1 (by decide) (by decide) (by decide) (by decide) (by decide)).2
     (0, 1) (by decide) (by decide) (by decide)⟩

theorem floodFill_reach (b : Board) (x y : Nat) (hx : x < b.width)
    (hy : y < b.height) (hhid : b.stateAt (b.idx x y) = CellState.Hidden)
    (hmine : b.mineAt (b.idx x y) = false)
    (hzero : b.adjacentMineCount x y = 0) :
    ∀ p, ZeroReach b (x, y) p →
      ((b.setState (b.idx x y)
        (CellState.Revealed 0)).floodFillZeroes x y).stateAt
          (b.idx p.1 p.2) = CellState.Revealed 0 ∧
      Expanded ((b.setState (b.idx x y)
        (CellState.Revealed 0)).floodFillZeroes x y) p := by
  have hlen : b.idx x y < b.state.length := by
    rw [b.hst]; exact idx_lt b hx hy
  have hsb2 : StepsTo b (b.setState (b.idx x y) (CellState.Revealed 0)) := by
    have := stepsTo_setState hhid hmine
    rw [countAt_idx b y hx, hzero] at this
    exact this
  have hb2self : (b.setState (b.idx x y) (CellState.Revealed 0)).stateAt
      (b.idx x y) = CellState.Revealed 0 :=
    setState_stateAt_self b _ hlen
  obtain ⟨hf1, hf2, hf3⟩ := floodFillZeroes_spec
    (b.setState (b.idx x y) (CellState.Revealed 0)) x y
    (by simpa using hx) (by simpa using hy)
  have hstep : StepsTo b ((b.setState (b.idx x y)
      (CellState.Revealed 0)).floodFillZeroes x y) := hsb2.trans hf1
  intro p hp
  induction hp with
  | refl =>
    exact ⟨hf1.revealed_preserved hb2self, hf2⟩
  | step p q hp hqmem hqhid hqmine hqzero ih =>
    have hq1 : q.1 < b.width := (neighbors_bounds hqmem).1
    have hq2 : q.2 < b.height := (neighbors_bounds hqmem).2
    by_cases hqs : b.idx q.1 q.2 = b.idx x y
    · have hqxy : q = (x, y) := idx_inj b hq1 hx hqs
      rw [hqxy]
      exact ⟨hf1.revealed_preserved hb2self, hf2⟩
    · obtain ⟨ihR, ihE⟩ := ih
      have hb2q : (b.setState (b.idx x y) (CellState.Revealed 0)).stateAt
          (b.idx q.1 q.2) = CellState.Hidden := by
        rw [setState_stateAt_ne b _ (fun h => hqs h.symm)]
        exact hqhid
      have hnh : ((b.setState (b.idx x y)
          (CellState.Revealed 0)).floodFillZeroes x y).stateAt
            (b.idx q.1 q.2) ≠ CellState.Hidden := by
        have hqmem' : q ∈ ((b.setState (b.idx x y)
            (CellState.Revealed 0)).floodFillZeroes x y).neighbors p.1 p.2 := by
          rw [neighbors_congr hstep.1 hstep.2.1]
          exact hqmem
        have := ihE q hqmem'
          (by rw [idx_congr hstep.1, hstep.mineAt_eq]; exact hqmine)
        rw [idx_congr hstep.1] at this
        exact this
      rcases hf1.2.2.2.2.2 (b.idx q.1 q.2) with he | ⟨-, -, hR⟩
      · rw [he] at hnh
        exact absurd hb2q hnh
      · have hR0 : ((b.setState (b.idx x y)
            (CellState.Revealed 0)).floodFillZeroes x y).stateAt
              (b.idx q.1 q.2) = CellState.Revealed 0 := by
          rw [hR]
          have hc : (b.setState (b.idx x y) (CellState.Revealed 0)).countAt
              (b.idx q.1 q.2) = b.adjacentMineCount q.1 q.2 := by
            rw [setState_countAt, countAt_idx b q.2 hq1]
          rw [hc, hqzero]
        refine ⟨hR0, ?_⟩
        exact hf3 q (by simpa using hq1) (by simpa using hq2) hb2q hR0

/-- C3 (amended): with mines placed, revealing a hidden non-mine cell of
adjacent count 0 transitions to `Revealed(0)` every cell of the zero-count
region reachable from it through hidden non-mine zero cells, reveals every
hidden non-mine cell adjacent to that reachable part with its own count
(the numbered border), and flood fill only ever turns hidden non-mine
cells into `Revealed` — it never changes a `Flagged` cell or a mine cell.
(The unamended claim, which asks this of the whole connected zero-count
region even when `Flagged` cells sit inside it, is refuted by
`flood_fill_claim_counterexample`.) -/
theorem flood_fill_closure (shuffle : List Nat → List Nat) (b : Board)
    (x y : Nat) (hplaced : b.minesPlaced = true) (hx : x < b.width)
    (hy : y < b.height)
    (hhid : b.stateAt (b.idx x y) = CellState.Hidden)
    (hmine : b.mineAt (b.idx x y) = false)
    (hzero : b.adjacentMineCount x y = 0) :
    (∀ p, ZeroReach b (x, y) p →
       (b.reveal shuffle x y).1.stateAt (b.idx p.1 p.2) =
         CellState.Revealed 0) ∧
    (∀ p q, ZeroReach b (x, y) p → q ∈ b.neighbors p.1 p.2 →
       b.stateAt (b.idx q.1 q.2) = CellState.Hidden →
       b.mineAt (b.idx q.1 q.2) = false →
       (b.reveal shuffle x y).1.stateAt (b.idx q.1 q.2) =
         CellState.Revealed (b.adjacentMineCount q.1 q.2)) ∧
    (∀ i, (b.reveal shuffle x y).1.stateAt i = b.stateAt i ∨
       (b.stateAt i = CellState.Hidden ∧ b.mineAt i = false ∧
        (b.reveal shuffle x y).1.stateAt i =
          CellState.Revealed (b.countAt i))) := by
  have hin : b.inBounds (x : Int) (y : Int) = true := inBounds_of_lt hx hy
  have hlen : b.idx x y < b.state.length := by
    rw [b.hst]; exact idx_lt b hx hy
  have hrw : b.reveal shuffle x y =
      (match b.stateAt (b.idx x y) with
       | CellState.Hidden =>
         if b.mineAt (b.idx x y) = true then (b, false)
         else
           if b.adjacentMineCount x y = 0 then
             ((b.setState (b.idx x y)
               (CellState.Revealed (b.adjacentMineCount x y))).floodFillZeroes
                 x y, true)
           else (b.setState (b.idx x y)
             (CellState.Revealed (b.adjacentMineCount x y)), true)
       | _ => (b, true)) := by
    rw [Board.reveal, if_pos hin,
      show (if b.minesPlaced = true then b
        else b.placeMinesExcluding shuffle (x, y)) = b from by
          rw [hplaced]; rfl]
  have hrw2 : (b.reveal shuffle x y).1 =
      (b.setState (b.idx x y) (CellState.Revealed 0)).floodFillZeroes x y := by
    rw [hrw]
    simp only [hhid, hmine, hzero]
    simp
  have hsb2 : StepsTo b (b.setState (b.idx x y) (CellState.Revealed 0)) := by
    have := stepsTo_setState hhid hmine
    rw [countAt_idx b y hx, hzero] at this
    exact this
  obtain ⟨hf1, -, -⟩ := floodFillZeroes_spec
    (b.setState (b.idx x y) (CellState.Revealed 0)) x y
    (by simpa using hx) (by simpa using hy)
  have hstep : StepsTo b ((b.setState (b.idx x y)
      (CellState.Revealed 0)).floodFillZeroes x y) := hsb2.trans hf1
  have key := floodFill_reach b x y hx hy hhid hmine hzero
  refine ⟨fun p hp => ?_, fun p q hp hqmem hqhid hqmine => ?_, fun i => ?_⟩
  · rw [hrw2]
    exact (key p hp).1
  · rw [hrw2]
    have hq1 : q.1 < b.width := (neighbors_bounds hqmem).1
    have hq2 : q.2 < b.height := (neighbors_bounds hqmem).2
    by_cases hqs : b.idx q.1 q.2 = b.idx x y
    · have hqxy : q = (x, y) := idx_inj b hq1 hx hqs
      rw [hqxy]
      show ((b.setState (b.idx x y)
          (CellState.Revealed 0)).floodFillZeroes x y).stateAt (b.idx x y) =
        CellState.Revealed (b.adjacentMineCount x y)
      rw [hzero]
      exact (key (x, y) ZeroReach.refl).1
    · obtain ⟨ihR, ihE⟩ := key p hp
      have hb2q : (b.setState (b.idx x y) (CellState.Revealed 0)).stateAt
          (b.idx q.1 q.2) = CellState.Hidden := by
        rw [setState_stateAt_ne b _ (fun h => hqs h.symm)]
        exact hqhid
      have hnh : ((b.setState (b.idx x y)
          (CellState.Revealed 0)).floodFillZeroes x y).stateAt
            (b.idx q.1 q.2) ≠ CellState.Hidden := by
        have hqmem' : q ∈ ((b.setState (b.idx x y)
            (CellState.Revealed 0)).floodFillZeroes x y).neighbors p.1 p.2 := by
          rw [neighbors_congr hstep.1 hstep.2.1]
          exact hqmem
        have := ihE q hqmem'
          (by rw [idx_congr hstep.1, hstep.mineAt_eq]; exact hqmine)
        rw [idx_congr hstep.1] at this
        exact this
      rcases hf1.2.2.2.2.2 (b.idx q.1 q.2) with he | ⟨-, -, hR⟩
      · rw [he] at hnh
        exact absurd hb2q hnh
      · rw [hR, setState_countAt, countAt_idx b q.2 hq1]
  · rw [hrw2]
    exact hstep.2.2.2.2.2 i

/-- C3 counterexample: the claim as stated — revealing a hidden non-mine
zero-count cell turns the ENTIRE connected zero-count region into
`Revealed(0)` — fails when a `Flagged` cell lies inside the region.  On a
2×2 board with 0 mines, cell `(1, 1)` is flagged, then `(0, 0)` (hidden,
non-mine, count 0) is revealed; `(1, 1)` belongs to the connected
zero-count region of `(0, 0)` yet stays `Flagged`, not `Revealed(0)`. -/
theorem flood_fill_claim_counterexample :
    ((Board.new 2 2 0).toggleFlag 1 1).stateAt
      (((Board.new 2 2 0).toggleFlag 1 1).idx 0 0) = CellState.Hidden ∧
    ((Board.new 2 2 0).toggleFlag 1 1).mineAt
      (((Board.new 2 2 0).toggleFlag 1 1).idx 0 0) = false ∧
    ((Board.new 2 2 0).toggleFlag 1 1).adjacentMineCount 0 0 = 0 ∧
    (((Board.new 2 2 0).toggleFlag 1 1).reveal (fun l => l) 0 0).2 = true ∧
    ZeroRegionConn ((Board.new 2 2 0).toggleFlag 1 1) (0, 0) (1, 1) ∧
    ¬((((Board.new 2 2 0).toggleFlag 1 1).reveal (fun l => l) 0 0).1.stateAt
      ((((Board.new 2 2 0).toggleFlag 1 1).reveal (fun l => l) 0 0).1.idx
        1 1) = CellState.Revealed 0) :=
  ⟨by decide, by decide, by decide, by decide,
   ZeroRegionConn.step (0, 0) (1, 1) ZeroRegionConn.refl (by decide)
     (by decide),
   by decide⟩

theorem flood_fill_closure_witness :
    (((Board.new 3 3 1).reveal (fun l => l) 0 1).1.minesPlaced = true ∧
     ((Board.new 3 3 1).reveal (fun l => l) 0 1).1.stateAt
       (((Board.new 3 3 1).reveal (fun l => l) 0 1).1.idx 2 2) =
       CellState.Hidden ∧
     ((Board.new 3 3 1).reveal (fun l => l) 0 1).1.adjacentMineCount 2 2 =
       0) ∧
    ((((Board.new 3 3 1).reveal (fun l => l) 0 1).1.reveal (fun l => l)
      2 2).1.stateAt
        (((Board.new 3 3 1).reveal (fun l => l) 0 1).1.idx 2 2) =
      CellState.Revealed 0) ∧
    ((((Board.new 3 3 1).reveal (fun l => l) 0 1).1.reveal (fun l => l)
      2 2).1.stateAt
        (((Board.new 3 3 1).reveal (fun l => l) 0 1).1.idx 1 1) =
      CellState.Revealed
        (((Board.new 3 3 1).reveal (fun l => l) 0 1).1.adjacentMineCount
          1 1)) :=
  ⟨⟨by decide, by decide, by decide⟩,
   (flood_fill_closure (fun l => l)
     ((Board.new 3 3 1).reveal (fun l => l) 0 1).1 2 2 (by decide) (by decide)
     (by decide) (by decide) (by decide) (by decide)).1 (2, 2) ZeroReach.refl,
   (flood_fill_closure (fun l => l)
     ((Board.new 3 3 1).reveal (fun l => l) 0 1).1 2 2 (by decide) (by decide)
     (by decide) (by decide) (by decide) (by decide)).2.1 (2, 2) (1, 1)
     ZeroReach.refl (by decide) (by decide) (by decide)⟩

end Minesweeper
